import Mathlib
set_option maxRecDepth 4000

/-!
Verification of the HMV fair-quote analysis core (src/app.py).

The development shallowly embeds the analytical core of the application:
text normalization (normalize_text), greedy clustering of combined keys
(the clusters loop), per-cluster statistics (groupby mean / count and
rounding), the tiered query matcher (exact / top2 / closest) and the
conclusion engine (get_conclusion).

Modelling conventions:
* Python strings are Lean Strings processed as lists of characters.
  str.upper is modelled characterwise by Char.toUpper (exact on ASCII).
  The regex classes \d, \w and \s are modelled by the ASCII predicates
  Char.isDigit, isWordChar and Char.isWhitespace.
* Machine floats are modelled by rationals; numpy round (np.round via
  DataFrame.round(2)) is round-half-to-even after scaling by 100, which
  coincides with the float computation whenever the scaling is exact
  (as it is at the values the claims pin down, such as 2.125).
* pandas sort_values(by=col, ascending=False) computes a descending order
  as the reverse of an ascending argsort (pandas nargsort reverses the
  ascending indexer).  The ascending argsort (numpy introsort) is modelled
  by a stable insertion sort, which is exact whenever numpy takes its
  insertion-sort path (fewer than 16 rows), the regime every concrete
  instance below lives in.
* difflib.SequenceMatcher (without junk or autojunk, which never trigger
  on the short token lists involved) is the Ratcliff-Obershelp matcher:
  repeatedly take the longest matching contiguous block, earliest in the
  first sequence and then in the second, and recurse on both sides.
* fuzzywuzzy is modelled on its pure-python difflib backend
  (fuzz.token_set_ratio over full_process-ed token sets).
* Missing cells (NaN) are out of the model's scope: record fields are
  strings and hours are rationals.  pd.isna on a string is False, so the
  isna branch of normalize_text is reachable only through the Option
  argument that stands for a possibly missing cell.
-/

/- The kernel evaluates concrete rational arithmetic in the witnesses, so
the irreducibility veil over the Rat operations is lifted for this file. -/
attribute [local semireducible] Rat.mul Rat.add Rat.inv Rat.sub

/-! ## Characters: the ASCII models of the regex classes -/

/-- Word characters of the regex word-boundary \b: letters, digits and the
underscore (ASCII model of the re module's \w). -/
def isWordChar (c : Char) : Bool :=
  c.isAlphanum || c = '_'

/-- The date separators accepted by the removal pattern: the character class of '-' and '/'. -/
def isSepChar (c : Char) : Bool :=
  c = '-' || c = '/'

/-! ## The date-removal pattern \b\d{1,2}, a separator ('-' or '/'), \d{1,2}, a separator, \d{2,4}\b

re.sub scans the string left to right and removes every non-overlapping
leftmost match.  A match is parsed here exactly as the backtracking regex
engine does: each bounded quantifier tries its longest count first, and
the later quantifier backtracks first, so the twelve (d1, d2, d3) digit
counts are tried in lexicographically decreasing order. -/

/-- Consume exactly n digit characters. -/
def parseExactDigits : Nat → List Char → Option (List Char × List Char)
  | 0, l => some ([], l)
  | _ + 1, [] => none
  | n + 1, c :: l =>
      if c.isDigit then
        (parseExactDigits n l).map (fun p => (c :: p.1, p.2))
      else none

/-- Consume one date separator. -/
def parseSep : List Char → Option (Char × List Char)
  | [] => none
  | c :: l => if isSepChar c then some (c, l) else none

/-- The word boundary \b placed after the final digit group: the next
character is absent or not a word character. -/
def headBoundary (l : List Char) : Bool :=
  match l with
  | [] => true
  | c :: _ => !(isWordChar c)

/-- The trailing \b placed before the first digit group: the previous
character is absent or not a word character. -/
def prevBoundary (p : Option Char) : Bool :=
  match p with
  | none => true
  | some c => !(isWordChar c)

/-- One backtracking branch of the date pattern: exactly n1 digits, a
separator, exactly n2 digits, a separator, exactly n3 digits, then the
trailing word boundary.  Returns (consumed characters, remainder). -/
def tryDateBranch (n1 n2 n3 : Nat) (l : List Char) : Option (List Char × List Char) := do
  let (d1, r1) ← parseExactDigits n1 l
  let (s1, r2) ← parseSep r1
  let (d2, r3) ← parseExactDigits n2 r2
  let (s2, r4) ← parseSep r3
  let (d3, r5) ← parseExactDigits n3 r4
  if headBoundary r5 then some (d1 ++ s1 :: (d2 ++ s2 :: d3), r5) else none

/-- The backtracking order of the bounded quantifiers: each greedy
quantifier tries its largest count first and the innermost one backtracks
first, so the digit counts are tried in lexicographically decreasing order. -/
def dateBranchOrder : List (Nat × Nat × Nat) :=
  [(2,2,4),(2,2,3),(2,2,2),(2,1,4),(2,1,3),(2,1,2),
   (1,2,4),(1,2,3),(1,2,2),(1,1,4),(1,1,3),(1,1,2)]

/-- A date match at the head of the list: the first branch that succeeds,
in the engine's backtracking order. -/
def tryDate (l : List Char) : Option (List Char × List Char) :=
  dateBranchOrder.foldr (fun t acc => tryDateBranch t.1 t.2.1 t.2.2 l <|> acc) none

theorem foldr_orElse_eq_some {α β : Type} {br : List β} {f : β → Option α} {a : α}
    (h : br.foldr (fun t acc => f t <|> acc) none = some a) :
    ∃ t ∈ br, f t = some a := by
  induction br with
  | nil => simp at h
  | cons t br ih =>
      simp only [List.foldr_cons] at h
      match hft : f t with
      | some v =>
          rw [hft] at h
          simp only [Option.some_orElse, Option.some.injEq] at h
          exact ⟨t, by simp, by rw [hft, h]⟩
      | none =>
          rw [hft] at h
          simp only [Option.none_orElse] at h
          obtain ⟨u, hu, hfu⟩ := ih h
          exact ⟨u, by simp [hu], hfu⟩

theorem foldr_orElse_isSome {α β : Type} {br : List β} {f : β → Option α} {t : β}
    (ht : t ∈ br) (h : (f t).isSome = true) :
    (br.foldr (fun t acc => f t <|> acc) none).isSome = true := by
  induction br with
  | nil => simp at ht
  | cons u br ih =>
      simp only [List.foldr_cons]
      rcases List.mem_cons.mp ht with he | hm
      · subst he
        match hft : f t with
        | some v => simp [Option.some_orElse]
        | none => rw [hft] at h; simp at h
      · match hfu : f u with
        | some v => simp [Option.some_orElse]
        | none => simp only [Option.none_orElse]; exact ih hm

theorem parseExactDigits_spec {n : Nat} {l d r : List Char}
    (h : parseExactDigits n l = some (d, r)) :
    l = d ++ r ∧ d.length = n ∧ ∀ c ∈ d, c.isDigit := by
  induction n generalizing l d r with
  | zero =>
      simp only [parseExactDigits, Option.some.injEq, Prod.mk.injEq] at h
      obtain ⟨h1, h2⟩ := h
      subst h1; subst h2; simp
  | succ n ih =>
      match l with
      | [] => simp [parseExactDigits] at h
      | c :: l =>
          simp only [parseExactDigits] at h
          by_cases hc : c.isDigit
          · rw [if_pos hc] at h
            match hp : parseExactDigits n l with
            | none => rw [hp] at h; simp at h
            | some (d', r') =>
                rw [hp] at h
                simp only [Option.map_some', Option.some.injEq, Prod.mk.injEq] at h
                obtain ⟨h1, h2⟩ := h
                obtain ⟨e1, e2, e3⟩ := ih hp
                subst h1; subst h2; subst e1
                refine ⟨rfl, by simp [e2], ?_⟩
                intro x hx
                rcases List.mem_cons.mp hx with h | h
                · subst h; exact hc
                · exact e3 x h
          · rw [if_neg hc] at h; simp at h

theorem parseSep_spec {l : List Char} {s : Char} {r : List Char}
    (h : parseSep l = some (s, r)) : l = s :: r ∧ isSepChar s := by
  match l with
  | [] => simp [parseSep] at h
  | c :: l =>
      simp only [parseSep] at h
      by_cases hc : isSepChar c
      · rw [if_pos hc] at h
        simp only [Option.some.injEq, Prod.mk.injEq] at h
        obtain ⟨h1, h2⟩ := h; subst h1; subst h2; exact ⟨rfl, hc⟩
      · rw [if_neg hc] at h; simp at h

/-- The shape of a removed date: one or two digits, a separator, one or two
digits, a separator, two to four digits, followed by a word boundary. -/
def DateShape (m r : List Char) : Prop :=
  ∃ d1 s1 d2 s2 d3, m = d1 ++ s1 :: (d2 ++ s2 :: d3) ∧
    1 ≤ d1.length ∧ d1.length ≤ 2 ∧ 1 ≤ d2.length ∧ d2.length ≤ 2 ∧
    2 ≤ d3.length ∧ d3.length ≤ 4 ∧
    (∀ c ∈ d1, c.isDigit) ∧ (∀ c ∈ d2, c.isDigit) ∧ (∀ c ∈ d3, c.isDigit) ∧
    isSepChar s1 = true ∧ isSepChar s2 = true ∧ headBoundary r = true

theorem tryDateBranch_spec {n1 n2 n3 : Nat} {l m r : List Char}
    (hn1 : 1 ≤ n1) (hn1' : n1 ≤ 2) (hn2 : 1 ≤ n2) (hn2' : n2 ≤ 2)
    (hn3 : 2 ≤ n3) (hn3' : n3 ≤ 4)
    (h : tryDateBranch n1 n2 n3 l = some (m, r)) :
    l = m ++ r ∧ DateShape m r := by
  simp only [tryDateBranch, bind, Option.bind_eq_some] at h
  obtain ⟨⟨d1, r1⟩, h1, ⟨s1, r2⟩, h2, ⟨d2, r3⟩, h3, ⟨s2, r4⟩, h4, ⟨d3, r5⟩, h5, h6⟩ := h
  obtain ⟨e1, e1l, e1d⟩ := parseExactDigits_spec h1
  obtain ⟨e2, e2s⟩ := parseSep_spec h2
  obtain ⟨e3, e3l, e3d⟩ := parseExactDigits_spec h3
  obtain ⟨e4, e4s⟩ := parseSep_spec h4
  obtain ⟨e5, e5l, e5d⟩ := parseExactDigits_spec h5
  dsimp only at e2 e3 e4 e5
  by_cases hb : headBoundary r5 = true
  · rw [if_pos hb] at h6
    simp only [Option.some.injEq, Prod.mk.injEq] at h6
    obtain ⟨hm, hr⟩ := h6
    subst hr
    constructor
    · rw [e1, e2, e3, e4, e5, ← hm]; simp
    · exact ⟨d1, s1, d2, s2, d3, hm.symm, by omega, by omega, by omega, by omega,
        by omega, by omega, e1d, e3d, e5d, e2s, e4s, hb⟩
  · simp only [hb] at h6
    simp at h6

theorem parseExactDigits_complete {d r : List Char}
    (hd : ∀ c ∈ d, c.isDigit) : parseExactDigits d.length (d ++ r) = some (d, r) := by
  induction d with
  | nil => simp [parseExactDigits]
  | cons c d ih =>
      have hc : c.isDigit := hd c (by simp)
      simp only [List.length_cons, List.cons_append, parseExactDigits, List.append_eq]
      rw [if_pos hc, ih (fun x hx => hd x (by simp [hx]))]
      rfl

theorem parseSep_complete {s : Char} {l : List Char} (hs : isSepChar s = true) :
    parseSep (s :: l) = some (s, l) := by
  simp [parseSep, hs]

theorem tryDateBranch_complete {d1 d2 d3 : List Char} {s1 s2 : Char} {r : List Char}
    (h1 : ∀ c ∈ d1, c.isDigit) (h2 : ∀ c ∈ d2, c.isDigit) (h3 : ∀ c ∈ d3, c.isDigit)
    (hs1 : isSepChar s1 = true) (hs2 : isSepChar s2 = true) (hb : headBoundary r = true) :
    tryDateBranch d1.length d2.length d3.length (d1 ++ s1 :: (d2 ++ s2 :: (d3 ++ r)))
      = some (d1 ++ s1 :: (d2 ++ s2 :: d3), r) := by
  simp only [tryDateBranch, bind]
  rw [parseExactDigits_complete h1]
  simp only [Option.some_bind]
  rw [parseSep_complete hs1]
  simp only [Option.some_bind]
  rw [parseExactDigits_complete h2]
  simp only [Option.some_bind]
  rw [parseSep_complete hs2]
  simp only [Option.some_bind]
  rw [parseExactDigits_complete h3]
  simp only [Option.some_bind]
  rw [if_pos hb]

theorem tryDate_spec {l m r : List Char} (h : tryDate l = some (m, r)) :
    l = m ++ r ∧ DateShape m r := by
  obtain ⟨t, ht, hbr⟩ := foldr_orElse_eq_some h
  have hall : ∀ u ∈ dateBranchOrder,
      1 ≤ u.1 ∧ u.1 ≤ 2 ∧ 1 ≤ u.2.1 ∧ u.2.1 ≤ 2 ∧ 2 ≤ u.2.2 ∧ u.2.2 ≤ 4 := by decide
  obtain ⟨b1, b2, b3, b4, b5, b6⟩ := hall t ht
  exact tryDateBranch_spec b1 b2 b3 b4 b5 b6 hbr

theorem tryDate_isSome_of_shape {m r : List Char} (hs : DateShape m r) :
    (tryDate (m ++ r)).isSome = true := by
  obtain ⟨d1, s1, d2, s2, d3, hm, a1, a2, a3, a4, a5, a6, g1, g2, g3, g4, g5, g6⟩ := hs
  have hbr := tryDateBranch_complete g1 g2 g3 g4 g5 g6
  have hL : d1 ++ s1 :: (d2 ++ s2 :: (d3 ++ r)) = m ++ r := by
    rw [hm]; simp
  rw [hL] at hbr
  have hmem : (d1.length, d2.length, d3.length) ∈ dateBranchOrder := by
    obtain e1 | e1 : d1.length = 1 ∨ d1.length = 2 := by omega
    all_goals obtain e2 | e2 : d2.length = 1 ∨ d2.length = 2 := by omega
    all_goals obtain e3 | e3 | e3 : d3.length = 2 ∨ d3.length = 3 ∨ d3.length = 4 := by omega
    all_goals rw [e1, e2, e3]
    all_goals decide
  exact foldr_orElse_isSome hmem (by rw [hbr]; rfl)

theorem DateShape.m_ne_nil {m r : List Char} (hs : DateShape m r) : m ≠ [] := by
  obtain ⟨d1, s1, d2, s2, d3, hm, a1, -⟩ := hs
  intro he
  rw [he] at hm
  exact absurd hm.symm (by simp)

/-! ## re.sub of the date pattern: the left-to-right scan

The scan tries the pattern at every position; a match is removed and the
scan resumes right after it (re.sub removes non-overlapping leftmost
matches).  The word boundary before a match inspects the previous
character of the original string, which the scan threads through.  The
recursion is written with an explicit fuel bounded by the list length so
that the definition is structural and computable by the kernel. -/

def scanDatesGo : Nat → Option Char → List Char → List Char
  | 0, _, l => l
  | _ + 1, _, [] => []
  | fuel + 1, p, c :: rest =>
    if prevBoundary p then
      match tryDate (c :: rest) with
      | some (m, rem) => scanDatesGo fuel (some (m.getLastD c)) rem
      | none => c :: scanDatesGo fuel (some c) rest
    else c :: scanDatesGo fuel (some c) rest

/-- Remove every date match from the list, as re.sub does; p is the
character preceding the current position (none at the start). -/
def scanDates (p : Option Char) (l : List Char) : List Char :=
  scanDatesGo l.length p l

theorem scanDatesGo_eq_of_le {n : Nat} : ∀ {l : List Char}, l.length ≤ n →
    ∀ {fuel : Nat}, l.length ≤ fuel → ∀ (p : Option Char),
    scanDatesGo fuel p l = scanDates p l := by
  unfold scanDates
  induction n with
  | zero =>
      intro l hl fuel hf p
      have he : l = [] := List.eq_nil_of_length_eq_zero (by omega)
      subst he
      cases fuel <;> rfl
  | succ n ih =>
      intro l hl fuel hf p
      match l, fuel with
      | [], 0 => rfl
      | [], fuel + 1 => rfl
      | c :: rest, fuel + 1 =>
        simp only [List.length_cons]
        simp only [List.length_cons] at hl hf
        simp only [scanDatesGo]
        by_cases hb : prevBoundary p = true
        · rw [if_pos hb, if_pos hb]
          match ht : tryDate (c :: rest) with
          | some (m, rem) =>
              obtain ⟨he, hshape⟩ := tryDate_spec ht
              have hmlen : 0 < m.length := List.length_pos.mpr hshape.m_ne_nil
              have hrem : rem.length ≤ rest.length := by
                have := congrArg List.length he
                simp only [List.length_cons, List.length_append] at this
                omega
              dsimp only
              rw [ih (by omega) (by omega)]
              first
                | rfl
                | exact (ih (by omega) (by omega) _).symm
          | none =>
              dsimp only
              rw [ih (by omega) (by omega)]
        · rw [if_neg hb, if_neg hb]
          rw [ih (by omega) (by omega)]

theorem scanDatesGo_fuel {l : List Char} {fuel : Nat} (hf : l.length ≤ fuel)
    (p : Option Char) : scanDatesGo fuel p l = scanDates p l :=
  scanDatesGo_eq_of_le (le_refl l.length) hf p

theorem scanDates_nil (p : Option Char) : scanDates p [] = [] := rfl

theorem scanDates_match {p : Option Char} {c : Char} {rest m rem : List Char}
    (hb : prevBoundary p = true) (ht : tryDate (c :: rest) = some (m, rem)) :
    scanDates p (c :: rest) = scanDates (some (m.getLastD c)) rem := by
  obtain ⟨he, hshape⟩ := tryDate_spec ht
  have hlen : rem.length < (c :: rest).length := by
    rw [he, List.length_append]
    have : 0 < m.length := List.length_pos.mpr hshape.m_ne_nil
    omega
  show scanDatesGo (c :: rest).length p (c :: rest) = _
  have : (c :: rest).length = rest.length + 1 := by simp
  rw [this]
  simp only [scanDatesGo, if_pos hb, ht]
  exact scanDatesGo_fuel (by simp only [List.length_cons] at hlen; omega) _

theorem scanDates_keep {p : Option Char} {c : Char} {rest : List Char}
    (h : prevBoundary p = false ∨ tryDate (c :: rest) = none) :
    scanDates p (c :: rest) = c :: scanDates (some c) rest := by
  show scanDatesGo (c :: rest).length p (c :: rest) = _
  have hl : (c :: rest).length = rest.length + 1 := by simp
  rw [hl]
  rcases h with hb | ht
  · simp only [scanDatesGo, hb]
    rw [scanDatesGo_fuel (le_refl _)]
    simp
  · by_cases hb : prevBoundary p = true
    · simp only [scanDatesGo, if_pos hb, ht]
      rw [scanDatesGo_fuel (le_refl _)]
    · simp only [scanDatesGo, if_neg hb]
      rw [scanDatesGo_fuel (le_refl _)]

/-! ## re.sub of whitespace runs, str.strip and str.upper -/

/-- re.sub of one-or-more whitespace to a single space, written as a
structural scan; the flag records whether the previous character was part
of a whitespace run already replaced. -/
def collapseGo (inWs : Bool) : List Char → List Char
  | [] => []
  | c :: rest =>
    if c.isWhitespace then
      if inWs then collapseGo true rest
      else ' ' :: collapseGo true rest
    else c :: collapseGo false rest

/-- Replace every maximal whitespace run by a single space. -/
def collapseWS (l : List Char) : List Char :=
  collapseGo false l

/-- str.strip: drop leading and trailing whitespace. -/
def pyStrip (l : List Char) : List Char :=
  ((l.dropWhile Char.isWhitespace).reverse.dropWhile Char.isWhitespace).reverse

/-- str.upper, characterwise (exact on ASCII). -/
def pyUpper (l : List Char) : List Char :=
  l.map Char.toUpper

/-- normalize_text of src/app.py: empty on a missing value, else uppercase,
remove date-like substrings, collapse whitespace runs and trim. -/
def normalize_text (t : Option String) : String :=
  match t with
  | none => ""
  | some s => ⟨pyStrip (collapseWS (scanDates none (pyUpper s.data)))⟩

example : normalize_text (some "Replace Seal 5/12/23") = "REPLACE SEAL" := by decide
example : normalize_text (some "  done  on 5-12-2023  ") = "DONE ON" := by decide
example : normalize_text (some "a 1/2/34/5/67 b") = "A /5/67 B" := by decide
example : normalize_text none = "" := by decide

/-! ## difflib.SequenceMatcher

ratio() is the Ratcliff-Obershelp measure: find the longest matching
contiguous block (the one starting earliest in the first sequence, and
among those earliest in the second), recurse on the pieces to the left
and to the right of the block, and return 2*M/T where M is the total
matched length and T the sum of the lengths (1.0 when both are empty).
Junk and autojunk never trigger on the short sequences involved here. -/

/-- Length of the longest common prefix. -/
def commonPrefixLen {α : Type} [DecidableEq α] : List α → List α → Nat
  | a :: as, b :: bs => if a = b then commonPrefixLen as bs + 1 else 0
  | _, _ => 0

/-- The longest matching block (i, j, k): maximal k with a[i:i+k] = b[j:j+k],
ties resolved to the smallest i and then the smallest j, as
find_longest_match documents. -/
def longestMatch {α : Type} [DecidableEq α] (a b : List α) : Nat × Nat × Nat :=
  ((List.range a.length).flatMap (fun i =>
    (List.range b.length).map (fun j => (i, j, commonPrefixLen (a.drop i) (b.drop j))))).foldl
    (fun best c => if best.2.2 < c.2.2 then c else best) (0, 0, 0)

/-- Total matched length over all matching blocks (fueled recursion;
the fuel is spent once per recursion level). -/
def matchTotalGo {α : Type} [DecidableEq α] : Nat → List α → List α → Nat
  | 0, _, _ => 0
  | fuel + 1, a, b =>
    let t := longestMatch a b
    if t.2.2 = 0 then 0
    else matchTotalGo fuel (a.take t.1) (b.take t.2.1) + t.2.2 +
         matchTotalGo fuel (a.drop (t.1 + t.2.2)) (b.drop (t.2.1 + t.2.2))

def matchTotal {α : Type} [DecidableEq α] (a b : List α) : Nat :=
  matchTotalGo (a.length + b.length + 1) a b

/-- SequenceMatcher.ratio(): 2*M/T, and 1.0 when both sequences are empty. -/
def seqRatio {α : Type} [DecidableEq α] (a b : List α) : ℚ :=
  if a.length + b.length = 0 then 1
  else 2 * (matchTotal a b : ℚ) / ((a.length : ℚ) + (b.length : ℚ))

/-- str.split() with no argument: split on whitespace runs, producing no
empty parts; acc holds the current word reversed. -/
def pySplitAux (acc : List Char) : List Char → List String
  | [] => if acc = [] then [] else [⟨acc.reverse⟩]
  | c :: rest =>
    if c.isWhitespace then
      if acc = [] then pySplitAux [] rest
      else ⟨acc.reverse⟩ :: pySplitAux [] rest
    else pySplitAux (c :: acc) rest

def pySplit (s : String) : List String :=
  pySplitAux [] s.data

/-- semantic_overlap of src/app.py: SequenceMatcher ratio over the
whitespace-tokenized words, scaled to 0..100. -/
def semantic_overlap (a b : String) : ℚ :=
  seqRatio (pySplit a) (pySplit b) * 100

/-! ## Rounding

Python round() and numpy rint round half to even.  int(round(x)) for the
fuzz scores, and DataFrame.round(2) via scaling by 100. -/

def roundHalfEven (q : ℚ) : ℤ :=
  if q - ⌊q⌋ < 1/2 then ⌊q⌋
  else if (1 : ℚ)/2 < q - ⌊q⌋ then ⌊q⌋ + 1
  else if ⌊q⌋ % 2 = 0 then ⌊q⌋ else ⌊q⌋ + 1

/-- DataFrame.round(2): round half to even at the second decimal. -/
def roundTo2 (q : ℚ) : ℚ :=
  (roundHalfEven (q * 100) : ℚ) / 100

/-! ## fuzzywuzzy (difflib backend)

fuzz.token_set_ratio full-processes both strings (keep letters, digits and
underscore, lowercase, strip), splits them into token sets, and returns the
maximum of the three pairwise fuzz.ratio scores between the sorted
intersection and the two sorted combinations. -/

/-- utils.full_process: non-alphanumeric characters (underscore excepted)
become spaces, lowercase, strip. -/
def full_process (s : String) : String :=
  ⟨pyStrip ((s.data.map (fun c => if c.isAlphanum || c = '_' then c else ' ')).map
    Char.toLower)⟩

/-- fuzz.ratio: the character-level SequenceMatcher ratio scaled to 0..100
and rounded half to even to an integer. -/
def fuzz_ratio (a b : String) : ℤ :=
  roundHalfEven (100 * seqRatio a.data b.data)

/-- Stable insertion of x into a sorted list: x goes before the first
element it compares le to, so earlier elements stay first on ties when the
sort folds from the right. -/
def insertionBy {α : Type} (le : α → α → Bool) (x : α) : List α → List α
  | [] => [x]
  | y :: ys => if le x y then x :: y :: ys else y :: insertionBy le x ys

/-- Stable ascending insertion sort. -/
def sortByLe {α : Type} (le : α → α → Bool) (l : List α) : List α :=
  l.foldr (insertionBy le) []

/-- Lexicographic code-point order on character lists (Python string <). -/
def charListLt : List Char → List Char → Bool
  | _, [] => false
  | [], _ :: _ => true
  | a :: as, b :: bs => if a < b then true else if b < a then false else charListLt as bs

/-- Python string comparison a <= b. -/
def strLe (a b : String) : Bool :=
  !(charListLt b.data a.data)

/-- Python sorted() over strings: ascending code-point order. -/
def sortStrings (l : List String) : List String :=
  sortByLe strLe l

/-- First-seen-order deduplication (the dedup inside Python set construction,
made deterministic through sorted()). -/
def uniqueFirstAux (seen : List String) : List String → List String
  | [] => []
  | x :: xs => if x ∈ seen then uniqueFirstAux seen xs
               else x :: uniqueFirstAux (seen ++ [x]) xs

/-- pandas Series.unique: distinct values in first-seen order. -/
def uniqueFirst (l : List String) : List String :=
  uniqueFirstAux [] l

/-- fuzz.token_set_ratio on the difflib backend. -/
def token_set_ratio (s1 s2 : String) : ℤ :=
  let p1 := full_process s1
  let p2 := full_process s2
  if p1.data.length = 0 then 0
  else if p2.data.length = 0 then 0
  else
    let tokens1 := uniqueFirst (pySplit p1)
    let tokens2 := uniqueFirst (pySplit p2)
    let sect := sortStrings (tokens1.filter (fun t => t ∈ tokens2))
    let d12 := sortStrings (tokens1.filter (fun t => t ∉ tokens2))
    let d21 := sortStrings (tokens2.filter (fun t => t ∉ tokens1))
    let sorted_sect := String.intercalate " " sect
    let combined_1to2 := ⟨pyStrip (sorted_sect ++ " " ++ String.intercalate " " d12).data⟩
    let combined_2to1 := ⟨pyStrip (sorted_sect ++ " " ++ String.intercalate " " d21).data⟩
    max (fuzz_ratio sorted_sect combined_1to2)
      (max (fuzz_ratio sorted_sect combined_2to1)
        (fuzz_ratio combined_1to2 combined_2to1))

example : semantic_overlap "A B" "A B" = 100 := by decide
example : semantic_overlap "C D" "C X" = 50 := by decide
example : token_set_ratio "replace seal" "seal replace" = 100 := by decide

/-! ## The clustering loop of src/app.py

    clusters = {}
    for key in df['Combined Key'].unique():
        if not key: continue
        for rep in clusters:
            if fuzz.token_set_ratio(key, rep) >= 90:
                clusters[rep].append(key); break
        else:
            clusters[key] = [key]
    key_to_rep = {k: r for r, lst in clusters.items() for k in lst}

The dict preserves insertion order, so clusters is an ordered association
list from representative key to member list. -/

/-- Append a member to the first cluster whose representative is rep. -/
def appendMember (rep key : String) : List (String × List String) → List (String × List String)
  | [] => []
  | c :: cs => if c.1 = rep then (c.1, c.2 ++ [key]) :: cs
               else c :: appendMember rep key cs

/-- One iteration of the clustering loop body for a non-empty key: join the
first existing representative with similarity >= 90, else open a new
singleton cluster.  The similarity is a parameter so that the invariants
below hold for any similarity measure. -/
def addKey (sim : String → String → ℤ) (clusters : List (String × List String))
    (key : String) : List (String × List String) :=
  match clusters.find? (fun c => 90 ≤ sim key c.1) with
  | some c => appendMember c.1 key clusters
  | none => clusters ++ [(key, [key])]

/-- The full clustering pass over the distinct combined keys in first-seen
order, skipping empty keys, with a parametric similarity. -/
def buildClustersWith (sim : String → String → ℤ) (keys : List String) :
    List (String × List String) :=
  (uniqueFirst keys).foldl (fun cl key => if key = "" then cl else addKey sim cl key) []

/-- The clustering of src/app.py: the similarity is fuzz.token_set_ratio. -/
def buildClusters (keys : List String) : List (String × List String) :=
  buildClustersWith (fun a b => token_set_ratio a b) keys

/-- key_to_rep: every member key maps to its cluster's representative. -/
def keyToRep (clusters : List (String × List String)) : List (String × String) :=
  clusters.flatMap (fun c => c.2.map (fun k => (k, c.1)))

/-! ## Records and the built dataset -/

/-- One row of the uploaded table (NaN-free model: the cells are strings
and the hours a rational). -/
structure RawRecord where
  description : String
  correctiveAction : String
  totalHours : ℚ
  year : Int
  cardNo : String
deriving DecidableEq

/-- One row of the enriched dataframe: the raw columns, the normalized
text columns, the combined key, the cluster assignment, the merged cluster
statistics and the Overlap column (absent until a query writes it). -/
structure BuiltRow where
  description : String
  correctiveAction : String
  totalHours : ℚ
  year : Int
  cardNo : String
  normDisc : String
  normCorr : String
  combinedKey : String
  clusterKey : Option String
  actualHistoricHours : Option ℚ
  occurrences : Option Nat
  fairQuote : Option ℚ
  overlap : Option ℚ
deriving DecidableEq

/-- str.replace of the fixed annotation marker by the empty string
(left-to-right, non-overlapping), written with explicit fuel so that the
scan is structural. -/
def listStartsWith : List Char → List Char → Bool
  | [], _ => true
  | _ :: _, [] => false
  | p :: ps, c :: cs => p = c && listStartsWith ps cs

def removeAllGo (pat : List Char) : Nat → List Char → List Char
  | 0, l => l
  | _ + 1, [] => []
  | fuel + 1, c :: rest =>
    if listStartsWith pat (c :: rest) then removeAllGo pat fuel ((c :: rest).drop pat.length)
    else c :: removeAllGo pat fuel rest

/-- x.replace("(FOR REFERENCE ONLY)", "") applied to the Description cell. -/
def replaceRefOnly (s : String) : String :=
  ⟨removeAllGo "(FOR REFERENCE ONLY)".data (s.data.length + 1) s.data⟩

/-- The normalized discrepancy of a cell: strip the annotation marker,
then normalize. -/
def normDiscOf (s : String) : String :=
  normalize_text (some (replaceRefOnly s))

/-- The normalized corrective action of a cell. -/
def normCorrOf (s : String) : String :=
  normalize_text (some s)

/-- Combined Key: normalized discrepancy, " | ", normalized corrective action. -/
def combinedKeyOf (nd nc : String) : String :=
  nd ++ " | " ++ nc

/-- build_dataset: normalize both text columns, build the combined keys,
cluster the distinct keys, map every row to its cluster representative,
and merge per-cluster mean hours, occurrence count and the rounded fair
quote back onto every row (groupby drops unmapped keys; a left merge
leaves their statistics missing.

The rows paired with their normalized fields and combined key. -/
def keyedOf (records : List RawRecord) : List (RawRecord × String × String × String) :=
  records.map (fun r =>
    (r, normDiscOf r.description, normCorrOf r.correctiveAction,
      combinedKeyOf (normDiscOf r.description) (normCorrOf r.correctiveAction)))

/-- Every keyed row paired with its cluster representative (the map of the
Combined Key column through key_to_rep). -/
def withClusterOf (records : List RawRecord) :
    List ((RawRecord × String × String × String) × Option String) :=
  (keyedOf records).map (fun t =>
    (t, List.lookup t.2.2.2 (keyToRep (buildClusters ((keyedOf records).map
      (fun t => t.2.2.2))))))

/-- The merged statistics row: groupby('Cluster Key') mean and count of
Total Hours, joined back, and the Fair Quote column as the rounded mean.
Rows whose key the lookup missed keep missing statistics (a left merge).

The rows grouped under cluster representative k. -/
def groupOf (withCluster : List ((RawRecord × String × String × String) × Option String))
    (k : String) : List ((RawRecord × String × String × String) × Option String) :=
  withCluster.filter (fun tc' => tc'.2 = some k)

/-- The cluster statistics a row receives: the mean of Total Hours over its
group and the group size (none when the row has no cluster key). -/
def statsOf (withCluster : List ((RawRecord × String × String × String) × Option String))
    (tc : (RawRecord × String × String × String) × Option String) : Option (ℚ × Nat) :=
  tc.2.map (fun k =>
    (((groupOf withCluster k).map (fun tc' => tc'.1.1.totalHours)).sum /
      ((groupOf withCluster k).length : ℚ), (groupOf withCluster k).length))

def enrichRow (withCluster : List ((RawRecord × String × String × String) × Option String))
    (tc : (RawRecord × String × String × String) × Option String) : BuiltRow :=
  { description := tc.1.1.description, correctiveAction := tc.1.1.correctiveAction,
    totalHours := tc.1.1.totalHours, year := tc.1.1.year, cardNo := tc.1.1.cardNo,
    normDisc := tc.1.2.1, normCorr := tc.1.2.2.1, combinedKey := tc.1.2.2.2,
    clusterKey := tc.2,
    actualHistoricHours := (statsOf withCluster tc).map (fun s => s.1),
    occurrences := (statsOf withCluster tc).map (fun s => s.2),
    fairQuote := (statsOf withCluster tc).map (fun s => roundTo2 s.1),
    overlap := none }

def buildDataset (records : List RawRecord) : List BuiltRow :=
  (withClusterOf records).map (enrichRow (withClusterOf records))

/-! ## The tiered query matcher -/

/-- total_similarity of src/app.py: the mean of the two per-field
semantic_overlap scores against a row. -/
def total_similarity (norm_disc norm_corr : String) (r : BuiltRow) : ℚ :=
  (semantic_overlap norm_disc r.normDisc + semantic_overlap norm_corr r.normCorr) / 2

/-- The Overlap column value of a row (0 when the column was never written;
every row the tiers inspect has it written). -/
def overlapVal (r : BuiltRow) : ℚ :=
  r.overlap.getD 0

/-- df['Overlap'] = df.apply(total_similarity, axis=1): every row receives
its overlap score against the query. -/
def withOverlap (norm_disc norm_corr : String) (df : List BuiltRow) : List BuiltRow :=
  df.map (fun r => { r with overlap := some (total_similarity norm_disc norm_corr r) })

/-- sort_values(by='Overlap', ascending=False): pandas argsorts ascending
and reverses the indexer, so the descending order is the reverse of a
stable ascending sort. -/
def sortDescOverlap (l : List BuiltRow) : List BuiltRow :=
  (sortByLe (fun r s => decide (overlapVal r ≤ overlapVal s)) l).reverse

/-- The match outcome rendered by the page: exactly one of the three tier
branches, carrying the rows its table displays. -/
inductive MatchResult where
  | exact (rows : List BuiltRow)
  | approximate (rows : List BuiltRow)
  | nearest (rows : List BuiltRow)
deriving DecidableEq

/-- The exact tier: rows whose combined key equals the query's. -/
def exactTier (df : List BuiltRow) (combined_input : String) : List BuiltRow :=
  df.filter (fun r => r.combinedKey = combined_input)

/-- The approximate candidate set: overlap at least 50 and a combined key
different from the query's. -/
def approxSet (df2 : List BuiltRow) (combined_input : String) : List BuiltRow :=
  df2.filter (fun r => 50 ≤ overlapVal r ∧ r.combinedKey ≠ combined_input)

/-- top2: the two best approximate rows in pandas descending order. -/
def top2Of (df2 : List BuiltRow) (combined_input : String) : List BuiltRow :=
  (sortDescOverlap (approxSet df2 combined_input)).take 2

/-- closest: the single best row with overlap below 50. -/
def closestOf (df2 : List BuiltRow) : List BuiltRow :=
  (sortDescOverlap (df2.filter (fun r => overlapVal r < 50))).take 1

/-- match_query: the query is normalized like a record; the exact tier is
filtered on the original frame; the Overlap column is then written for
every row; the page renders the first non-empty tier (exact, then top2,
then closest) and nothing at all when every tier is empty.  Returns the
rendered outcome and the dataframe as the query leaves it.

The page's branch selection: the first non-empty tier wins; when every
tier is empty nothing is rendered. -/
def assembleResult (ex top2 closest : List BuiltRow) : Option MatchResult :=
  if ex ≠ [] then some (MatchResult.exact ex)
  else if top2 ≠ [] then some (MatchResult.approximate top2)
  else if closest ≠ [] then some (MatchResult.nearest closest)
  else none

def matchQuery (df : List BuiltRow) (discrepancy_input corrective_input : String) :
    Option MatchResult × List BuiltRow :=
  let norm_disc := normDiscOf discrepancy_input
  let norm_corr := normCorrOf corrective_input
  let combined_input := combinedKeyOf norm_disc norm_corr
  let df2 := withOverlap norm_disc norm_corr df
  (assembleResult (exactTier df combined_input) (top2Of df2 combined_input)
    (closestOf df2), df2)

/-! ## The conclusion engine -/

/-- get_conclusion of src/app.py: conclusion text, color, the percentage
difference shown (none for the N/A display when fair == 0; the one-decimal
formatting is presentation) and the css diff class. -/
def get_conclusion (supplier fair : ℚ) : String × String × Option ℚ × String :=
  let percent_diff : Option ℚ :=
    if fair = 0 then none else some ((supplier - fair) / fair * 100)
  let diff_class :=
    if fair = 0 then "diff-neutral"
    else if (supplier - fair) / fair * 100 < 0 then "diff-negative"
    else if |(supplier - fair) / fair * 100| ≤ 5 then "diff-neutral"
    else "diff-positive"
  if fair = 0 then
    ("No historical data available - needs manual review", "red", percent_diff, diff_class)
  else if supplier < fair then
    ("Fair quote - approve quote", "green", percent_diff, diff_class)
  else if |supplier - fair| / fair ≤ 5/100 then
    ("In expected range (±5%) - consider approving", "black", percent_diff, diff_class)
  else
    ("Beyond expected range - needs BP review", "red", percent_diff, diff_class)

/-! ## C1: the conclusion order -/

/-- C1: for every supplier_hours >= 0 and every fair_quote_hours,
get_conclusion evaluates its states in order: fair == 0 gives the
no-historical-data verdict regardless of supplier_hours; otherwise
supplier < fair gives the fair-approve verdict; otherwise a relative gap
|supplier - fair| / fair of at most 0.05 gives the in-range verdict, so a
supplier exactly 5 percent above fair is in range; otherwise (for example
5.01 percent above) the verdict is beyond range. -/
theorem C1_conclusion_order (supplier fair : ℚ) (hs : 0 ≤ supplier) :
    (fair = 0 → (get_conclusion supplier fair).1 =
      "No historical data available - needs manual review") ∧
    (fair ≠ 0 → supplier < fair → (get_conclusion supplier fair).1 =
      "Fair quote - approve quote") ∧
    (fair ≠ 0 → ¬ supplier < fair → |supplier - fair| / fair ≤ 5/100 →
      (get_conclusion supplier fair).1 =
        "In expected range (±5%) - consider approving") ∧
    (fair ≠ 0 → ¬ supplier < fair → ¬ (|supplier - fair| / fair ≤ 5/100) →
      (get_conclusion supplier fair).1 =
        "Beyond expected range - needs BP review") ∧
    (0 < fair → supplier = fair * (105/100) →
      (get_conclusion supplier fair).1 =
        "In expected range (±5%) - consider approving") ∧
    (0 < fair → supplier = fair * (10501/10000) →
      (get_conclusion supplier fair).1 =
        "Beyond expected range - needs BP review") := by
  refine ⟨?_, ?_, ?_, ?_, ?_, ?_⟩
  · intro h0
    simp [get_conclusion, h0]
  · intro h0 hlt
    simp [get_conclusion, h0, hlt]
  · intro h0 hnl hle
    simp [get_conclusion, h0, hnl, hle]
  · intro h0 hnl hgt
    simp [get_conclusion, h0, hnl, hgt]
  · intro hf he
    have h0 : fair ≠ 0 := ne_of_gt hf
    have hnl : ¬ supplier < fair := by rw [he]; nlinarith
    have habs : |supplier - fair| / fair = 5/100 := by
      rw [he, show fair * (105/100) - fair = fair * (5/100) by ring,
        abs_of_nonneg (by positivity)]
      field_simp
      ring
    simp [get_conclusion, h0, hnl, habs]
  · intro hf he
    have h0 : fair ≠ 0 := ne_of_gt hf
    have hnl : ¬ supplier < fair := by rw [he]; nlinarith
    have habs : |supplier - fair| / fair = 501/10000 := by
      rw [he, show fair * (10501/10000) - fair = fair * (501/10000) by ring,
        abs_of_nonneg (by positivity)]
      field_simp
      ring
    have hgt : ¬ (|supplier - fair| / fair ≤ 5/100) := by rw [habs]; norm_num
    simp [get_conclusion, h0, hnl, hgt]

/-- Witness for C1 at supplier = 21/10, fair = 2 (exactly 5 percent above). -/
theorem C1_conclusion_order_witness :
    (0 : ℚ) ≤ 21/10 ∧
    (((2:ℚ) = 0 → (get_conclusion (21/10) 2).1 =
      "No historical data available - needs manual review") ∧
    ((2:ℚ) ≠ 0 → (21/10 : ℚ) < 2 → (get_conclusion (21/10) 2).1 =
      "Fair quote - approve quote") ∧
    ((2:ℚ) ≠ 0 → ¬ (21/10 : ℚ) < 2 → |(21/10 : ℚ) - 2| / 2 ≤ 5/100 →
      (get_conclusion (21/10) 2).1 =
        "In expected range (±5%) - consider approving") ∧
    ((2:ℚ) ≠ 0 → ¬ (21/10 : ℚ) < 2 → ¬ (|(21/10 : ℚ) - 2| / 2 ≤ 5/100) →
      (get_conclusion (21/10) 2).1 =
        "Beyond expected range - needs BP review") ∧
    ((0:ℚ) < 2 → (21/10 : ℚ) = 2 * (105/100) →
      (get_conclusion (21/10) 2).1 =
        "In expected range (±5%) - consider approving") ∧
    ((0:ℚ) < 2 → (21/10 : ℚ) = 2 * (10501/10000) →
      (get_conclusion (21/10) 2).1 =
        "Beyond expected range - needs BP review")) :=
  ⟨by norm_num, C1_conclusion_order (21/10) 2 (by norm_num)⟩

/-! ## C5: clustering invariants -/

theorem mem_uniqueFirstAux {k : String} : ∀ {l seen : List String},
    (k ∈ uniqueFirstAux seen l ↔ k ∈ l ∧ k ∉ seen) := by
  intro l
  induction l with
  | nil => intro seen; simp [uniqueFirstAux]
  | cons x xs ih =>
      intro seen
      simp only [uniqueFirstAux]
      by_cases hx : x ∈ seen
      · rw [if_pos hx, ih]
        constructor
        · rintro ⟨h1, h2⟩; exact ⟨by simp [h1], h2⟩
        · rintro ⟨h1, h2⟩
          rcases List.mem_cons.mp h1 with he | hm
          · subst he; exact absurd hx h2
          · exact ⟨hm, h2⟩
      · rw [if_neg hx]
        simp only [List.mem_cons, ih, List.mem_append, List.mem_singleton]
        constructor
        · rintro (he | ⟨h1, h2⟩)
          · subst he; exact ⟨Or.inl rfl, hx⟩
          · exact ⟨Or.inr h1, fun hc => h2 (Or.inl hc)⟩
        · rintro ⟨he | hm, h2⟩
          · exact Or.inl he
          · by_cases hk : k = x
            · exact Or.inl hk
            · exact Or.inr ⟨hm, by simp [h2, hk]⟩

theorem nodup_uniqueFirstAux : ∀ (l seen : List String), (uniqueFirstAux seen l).Nodup := by
  intro l
  induction l with
  | nil => intro seen; simp [uniqueFirstAux]
  | cons x xs ih =>
      intro seen
      simp only [uniqueFirstAux]
      by_cases hx : x ∈ seen
      · rw [if_pos hx]; exact ih seen
      · rw [if_neg hx]
        refine List.nodup_cons.mpr ⟨?_, ih (seen ++ [x])⟩
        intro hc
        have := (mem_uniqueFirstAux.mp hc).2
        simp at this

theorem mem_uniqueFirst {k : String} {l : List String} :
    k ∈ uniqueFirst l ↔ k ∈ l := by
  unfold uniqueFirst
  rw [mem_uniqueFirstAux]
  simp

/-- keyToRep distributes over appending a singleton cluster. -/
theorem keyToRep_append_singleton (cl : List (String × List String)) (key : String) :
    keyToRep (cl ++ [(key, [key])]) = keyToRep cl ++ [(key, key)] := by
  simp [keyToRep]

theorem keyToRep_cons (c : String × List String) (cs : List (String × List String)) :
    keyToRep (c :: cs) = c.2.map (fun k => (k, c.1)) ++ keyToRep cs := rfl

theorem appendMember_keyToRep {rep key : String} :
    ∀ {cl : List (String × List String)}, rep ∈ cl.map Prod.fst →
    ∀ x r, ((x, r) ∈ keyToRep (appendMember rep key cl) ↔
      ((x, r) ∈ keyToRep cl ∨ (x = key ∧ r = rep))) := by
  intro cl
  induction cl with
  | nil => intro h; simp at h
  | cons c cs ih =>
      intro hrep x r
      simp only [appendMember]
      by_cases hc : c.1 = rep
      · rw [if_pos hc]
        subst hc
        rw [show ((c.1, c.2 ++ [key]) :: cs : List (String × List String))
              = ((c.1, c.2 ++ [key])) :: cs from rfl]
        rw [keyToRep_cons, keyToRep_cons, List.map_append]
        simp only [List.mem_append, List.map_cons, List.map_nil,
          List.mem_singleton, Prod.mk.injEq]
        tauto
      · rw [if_neg hc]
        have hrep' : rep ∈ cs.map Prod.fst := by
          rcases List.mem_map.mp hrep with ⟨y, hy, he⟩
          rcases List.mem_cons.mp hy with he' | hm
          · subst he'; exact absurd he hc
          · exact List.mem_map.mpr ⟨y, hm, he⟩
        rw [keyToRep_cons, keyToRep_cons]
        simp only [List.mem_append]
        rw [ih hrep' x r]
        tauto

/-- addKey adds the pair (key, rep) for the representative it selects and
changes no other pair of key_to_rep. -/
theorem addKey_keyToRep (sim : String → String → ℤ) (cl : List (String × List String))
    (key : String) :
    ∃ rep, (rep ∈ cl.map Prod.fst ∨ rep = key) ∧
      ∀ x r, ((x, r) ∈ keyToRep (addKey sim cl key) ↔
        ((x, r) ∈ keyToRep cl ∨ (x = key ∧ r = rep))) := by
  unfold addKey
  match hf : cl.find? (fun c => 90 ≤ sim key c.1) with
  | some c =>
      refine ⟨c.1, Or.inl ?_, ?_⟩
      · exact List.mem_map.mpr ⟨c, List.mem_of_find?_eq_some hf, rfl⟩
      · intro x r
        rw [hf]
        exact appendMember_keyToRep
          (List.mem_map.mpr ⟨c, List.mem_of_find?_eq_some hf, rfl⟩) x r
  | none =>
      refine ⟨key, Or.inr rfl, ?_⟩
      intro x r
      rw [hf, keyToRep_append_singleton]
      simp only [List.mem_append, List.mem_singleton, Prod.mk.injEq]

/-- Representatives stay members of their own cluster through appendMember. -/
theorem appendMember_reps {rep key : String} :
    ∀ {cl : List (String × List String)}, (∀ c ∈ cl, c.1 ∈ c.2) →
    ∀ c ∈ appendMember rep key cl, c.1 ∈ c.2 := by
  intro cl
  induction cl with
  | nil => intro h c hc; simp [appendMember] at hc
  | cons d ds ih =>
      intro h c hc
      simp only [appendMember] at hc
      by_cases hd : d.1 = rep
      · rw [if_pos hd] at hc
        rcases List.mem_cons.mp hc with he | hm
        · subst he
          exact List.mem_append.mpr (Or.inl (h d (by simp)))
        · exact h c (by simp [hm])
      · rw [if_neg hd] at hc
        rcases List.mem_cons.mp hc with he | hm
        · subst he; exact h c (by simp)
        · exact ih (fun c' hc' => h c' (by simp [hc'])) c hm

theorem addKey_reps (sim : String → String → ℤ) (cl : List (String × List String))
    (key : String) (h : ∀ c ∈ cl, c.1 ∈ c.2) :
    ∀ c ∈ addKey sim cl key, c.1 ∈ c.2 := by
  unfold addKey
  match hf : cl.find? (fun c => 90 ≤ sim key c.1) with
  | some c =>
      intro c' hc'
      rw [hf] at hc'
      exact appendMember_reps h c' hc'
  | none =>
      intro c' hc'
      rw [hf] at hc'
      rcases List.mem_append.mp hc' with hm | hm
      · exact h c' hm
      · simp only [List.mem_singleton] at hm
        subst hm; simp

/-- The clustering loop invariant: representatives are members of their own
cluster, key_to_rep only contains processed keys, and every processed key
has exactly one representative. -/
def ClInv (cl : List (String × List String)) (P : List String) : Prop :=
  (∀ c ∈ cl, c.1 ∈ c.2) ∧
  (∀ x r, (x, r) ∈ keyToRep cl → x ∈ P) ∧
  (∀ k, k ∈ P → ∃! r, (k, r) ∈ keyToRep cl)

theorem clInv_addKey (sim : String → String → ℤ)
    {cl : List (String × List String)} {P : List String} {key : String}
    (h : ClInv cl P) (hkey : key ∉ P) : ClInv (addKey sim cl key) (P ++ [key]) := by
  obtain ⟨h1, h2, h3⟩ := h
  obtain ⟨rep, hrep, hiff⟩ := addKey_keyToRep sim cl key
  refine ⟨addKey_reps sim cl key h1, ?_, ?_⟩
  · intro x r hx
    rcases (hiff x r).mp hx with h | ⟨he, -⟩
    · exact List.mem_append.mpr (Or.inl (h2 x r h))
    · subst he; simp
  · intro k hk
    rcases List.mem_append.mp hk with hkP | hkk
    · obtain ⟨r, hr, hru⟩ := h3 k hkP
      refine ⟨r, (hiff k r).mpr (Or.inl hr), ?_⟩
      intro r' hr'
      rcases (hiff k r').mp hr' with h | ⟨he, -⟩
      · exact hru r' h
      · subst he
        exact absurd hkP hkey
    · simp only [List.mem_singleton] at hkk
      subst hkk
      refine ⟨rep, (hiff k rep).mpr (Or.inr ⟨rfl, rfl⟩), ?_⟩
      intro r' hr'
      rcases (hiff k r').mp hr' with h | ⟨-, he⟩
      · exact absurd (h2 k r' h) hkey
      · exact he

theorem clInv_foldl (sim : String → String → ℤ) :
    ∀ (ks : List String) (cl : List (String × List String)) (P : List String),
    ClInv cl P → ks.Nodup → (∀ k ∈ ks, k ∉ P) →
    ClInv (ks.foldl (fun cl key => if key = "" then cl else addKey sim cl key) cl)
      (P ++ ks.filter (fun k => k ≠ "")) := by
  intro ks
  induction ks with
  | nil =>
      intro cl P h _ _
      simpa using h
  | cons k ks ih =>
      intro cl P h hnd hdisj
      simp only [List.foldl_cons]
      by_cases hk : k = ""
      · rw [if_pos hk, List.filter_cons_of_neg (by simp [hk])]
        exact ih cl P h (List.nodup_cons.mp hnd).2
          (fun x hx => hdisj x (List.mem_cons_of_mem k hx))
      · rw [if_neg hk, List.filter_cons_of_pos (by simp [hk])]
        rw [show P ++ k :: List.filter (fun k => decide (k ≠ "")) ks
            = (P ++ [k]) ++ List.filter (fun k => decide (k ≠ "")) ks by simp]
        apply ih (addKey sim cl k) (P ++ [k])
          (clInv_addKey sim h (hdisj k (by simp))) (List.nodup_cons.mp hnd).2
        intro x hx
        simp only [List.mem_append, List.mem_singleton]
        rintro (hP | hxk)
        · exact hdisj x (List.mem_cons_of_mem k hx) hP
        · subst hxk
          exact (List.nodup_cons.mp hnd).1 hx

/-- C5: for every sequence of records, in the clustering built by the
single greedy pass over the distinct combined keys, every non-empty
combined key is assigned to exactly one cluster representative through
key_to_rep, and every cluster's representative key is itself a member of
its own cluster. -/
theorem C5_cluster_invariant (records : List RawRecord) :
    (∀ k ∈ records.map (fun r =>
        combinedKeyOf (normDiscOf r.description) (normCorrOf r.correctiveAction)),
      k ≠ "" → ∃! rep, (k, rep) ∈ keyToRep (buildClusters (records.map (fun r =>
        combinedKeyOf (normDiscOf r.description) (normCorrOf r.correctiveAction))))) ∧
    (∀ c ∈ buildClusters (records.map (fun r =>
        combinedKeyOf (normDiscOf r.description) (normCorrOf r.correctiveAction))),
      c.1 ∈ c.2) := by
  have base : ClInv [] [] := by
    refine ⟨by simp, ?_, by simp⟩
    intro x r hx
    simp [keyToRep] at hx
  have hinv := clInv_foldl (fun a b => token_set_ratio a b)
    (uniqueFirst (records.map (fun r =>
      combinedKeyOf (normDiscOf r.description) (normCorrOf r.correctiveAction)))) [] []
    base (nodup_uniqueFirstAux _ _) (by simp)
  constructor
  · intro k hk hne
    refine hinv.2.2 k ?_
    simp only [List.nil_append]
    exact List.mem_filter.mpr ⟨mem_uniqueFirst.mpr hk, by simp [hne]⟩
  · exact hinv.1

/-- Witness for C5 at a one-record dataset. -/
theorem C5_cluster_invariant_witness :
    ∃! rep, ("A | B", rep) ∈ keyToRep (buildClusters
      ([RawRecord.mk "A" "B" 1 2020 "c1"].map (fun r =>
        combinedKeyOf (normDiscOf r.description) (normCorrOf r.correctiveAction)))) :=
  (C5_cluster_invariant [RawRecord.mk "A" "B" 1 2020 "c1"]).1 "A | B" (by decide) (by decide)

/-! ## C10: singleton clusters and the rounding rule -/

/-- C10: in every built dataset, a row of a singleton cluster (occurrence
count 1) has fair quote equal to its own Total Hours rounded to two
decimals, and the rounding is round half to even: 2.125 rounds to 2.12 and
not to 2.13. -/
theorem C10_singleton_fair_quote (records : List RawRecord) :
    (∀ b ∈ buildDataset records, b.occurrences = some 1 →
      b.fairQuote = some (roundTo2 b.totalHours)) ∧
    roundTo2 (17/8 : ℚ) = 212/100 ∧ roundTo2 (17/8 : ℚ) ≠ 213/100 := by
  refine ⟨?_, by decide, by decide⟩
  intro b hb hocc
  obtain ⟨tc, htc, rfl⟩ := List.mem_map.mp hb
  simp only [enrichRow] at hocc ⊢
  match h2 : tc.2 with
  | none => rw [statsOf, h2] at hocc; simp at hocc
  | some k =>
      rw [statsOf, h2] at hocc ⊢
      simp only [Option.map_some'] at hocc ⊢
      have hlen : (groupOf (withClusterOf records) k).length = 1 := by
        simpa using hocc
      have hmem : tc ∈ groupOf (withClusterOf records) k :=
        List.mem_filter.mpr ⟨htc, by simp [h2]⟩
      obtain ⟨a, ha⟩ := List.length_eq_one.mp hlen
      rw [ha] at hmem
      simp only [List.mem_singleton] at hmem
      subst hmem
      rw [ha]
      simp

def c10Records : List RawRecord :=
  [RawRecord.mk "A" "B" (17/8) 2020 "c"]

def c10Row : BuiltRow :=
  BuiltRow.mk "A" "B" (17/8) 2020 "c" "A" "B" "A | B" (some "A | B")
    (some (17/8)) (some 1) (some (212/100)) none

/-- Witness for C10: a one-record dataset with Total Hours 2.125 whose
singleton cluster gets fair quote 2.12. -/
theorem C10_singleton_fair_quote_witness :
    c10Row ∈ buildDataset c10Records ∧ c10Row.occurrences = some 1 ∧
    c10Row.fairQuote = some (roundTo2 c10Row.totalHours) :=
  ⟨by decide, by decide,
    (C10_singleton_fair_quote c10Records).1 c10Row (by decide) (by decide)⟩

/-! ## C8: what a query changes in the dataframe -/

/-- A row with its Overlap column blanked. -/
def eraseOverlap (r : BuiltRow) : BuiltRow :=
  { r with overlap := none }

/-- C8 (amended): match_query leaves every built column of every row
unchanged - raw fields, normalized fields, combined key, cluster
assignment and the merged statistics; only the Overlap column differs. -/
theorem C8_match_preserves_built_columns (df : List BuiltRow) (d c : String) :
    ((matchQuery df d c).2).map eraseOverlap = df.map eraseOverlap := by
  have h : (matchQuery df d c).2 = withOverlap (normDiscOf d) (normCorrOf c) df := rfl
  rw [h]
  simp only [withOverlap, List.map_map]
  rfl

def c8Row : BuiltRow :=
  BuiltRow.mk "A" "B" 1 2020 "c" "A" "B" "A | B" (some "A | B")
    (some 1) (some 1) (some 1) none

/-- C8 counterexample: running a query does mutate the dataframe - the
Overlap column is written onto it, so the frame a query leaves behind
differs from the built one. -/
theorem C8_match_mutates_overlap :
    (matchQuery [c8Row] "A" "B").2 ≠ [c8Row] ∧
    (matchQuery [c8Row] "A" "B").2.map (fun r => r.overlap) = [some 100] := by
  refine ⟨?_, by decide⟩
  intro h
  have := congrArg (fun l => l.map (fun r : BuiltRow => r.overlap)) h
  revert this
  decide

/-! ## C2: exact-tier precedence -/

theorem filter_head?_eq_find? {α : Type} (p : α → Bool) :
    ∀ (l : List α), (l.filter p).head? = l.find? p := by
  intro l
  induction l with
  | nil => rfl
  | cons x xs ih =>
      by_cases hx : p x
      · rw [List.filter_cons_of_pos hx, List.find?_cons_of_pos _ hx]
        rfl
      · rw [List.filter_cons_of_neg (by simpa using hx), List.find?_cons_of_neg _ (by simpa using hx)]
        exact ih

theorem assembleResult_of_exact {ex top2 closest : List BuiltRow} (h : ex ≠ []) :
    assembleResult ex top2 closest = some (MatchResult.exact ex) := by
  simp [assembleResult, h]

theorem matchQuery_fst (df : List BuiltRow) (d c : String) :
    (matchQuery df d c).1 =
      assembleResult
        (exactTier df (combinedKeyOf (normDiscOf d) (normCorrOf c)))
        (top2Of (withOverlap (normDiscOf d) (normCorrOf c) df)
          (combinedKeyOf (normDiscOf d) (normCorrOf c)))
        (closestOf (withOverlap (normDiscOf d) (normCorrOf c) df)) := rfl

/-- C2: whenever some record's combined key equals the query's, the
rendered outcome is the Exact tier carrying exactly the matching rows
(whose first row is the first matching record in row order), and neither
the Approximate nor the Nearest tier is ever the outcome. -/
theorem C2_exact_tier_precedence (df : List BuiltRow) (d c : String)
    (h : ∃ r ∈ df, r.combinedKey = combinedKeyOf (normDiscOf d) (normCorrOf c)) :
    (matchQuery df d c).1 = some (MatchResult.exact
      (exactTier df (combinedKeyOf (normDiscOf d) (normCorrOf c)))) ∧
    (exactTier df (combinedKeyOf (normDiscOf d) (normCorrOf c))).head? =
      df.find? (fun r => r.combinedKey = combinedKeyOf (normDiscOf d) (normCorrOf c)) ∧
    (∀ rows, (matchQuery df d c).1 ≠ some (MatchResult.approximate rows)) ∧
    (∀ rows, (matchQuery df d c).1 ≠ some (MatchResult.nearest rows)) := by
  obtain ⟨r, hr, hkey⟩ := h
  have hne : exactTier df (combinedKeyOf (normDiscOf d) (normCorrOf c)) ≠ [] := by
    intro he
    have hm : r ∈ exactTier df (combinedKeyOf (normDiscOf d) (normCorrOf c)) :=
      List.mem_filter.mpr ⟨hr, by simp [hkey]⟩
    rw [he] at hm
    simp at hm
  have h1 := matchQuery_fst df d c
  rw [assembleResult_of_exact hne] at h1
  refine ⟨h1, filter_head?_eq_find? _ df, ?_, ?_⟩
  · intro rows hc
    rw [h1] at hc
    simp at hc
  · intro rows hc
    rw [h1] at hc
    simp at hc

def c2Row : BuiltRow :=
  BuiltRow.mk "A" "B" 1 2020 "c" "A" "B" "A | B" (some "A | B")
    (some 1) (some 1) (some 1) none

/-- Witness for C2 at a one-row dataset whose key the query hits. -/
theorem C2_exact_tier_precedence_witness :
    (∃ r ∈ [c2Row], r.combinedKey = combinedKeyOf (normDiscOf "A") (normCorrOf "B")) ∧
    ((matchQuery [c2Row] "A" "B").1 = some (MatchResult.exact
      (exactTier [c2Row] (combinedKeyOf (normDiscOf "A") (normCorrOf "B")))) ∧
    (exactTier [c2Row] (combinedKeyOf (normDiscOf "A") (normCorrOf "B"))).head? =
      [c2Row].find? (fun r => r.combinedKey = combinedKeyOf (normDiscOf "A") (normCorrOf "B")) ∧
    (∀ rows, (matchQuery [c2Row] "A" "B").1 ≠ some (MatchResult.approximate rows)) ∧
    (∀ rows, (matchQuery [c2Row] "A" "B").1 ≠ some (MatchResult.nearest rows))) :=
  ⟨by decide, C2_exact_tier_precedence [c2Row] "A" "B" (by decide)⟩

/-- C2 counterexample to "the Approximate and Nearest tiers are not
computed": with an exact match present the overlap scores those tiers are
built from are still computed and written onto every row. -/
theorem C2_tiers_still_computed :
    (matchQuery [c2Row] "A" "B").1 = some (MatchResult.exact [c2Row]) ∧
    (matchQuery [c2Row] "A" "B").2.map (fun r => r.overlap) = [some 100] := by
  decide

/-! ## C7: records that are blank in both text fields -/

def c7Record : RawRecord :=
  RawRecord.mk " " "" 3 2021 "k"

/-- C7: a record whose discrepancy and corrective action are both blank
after normalization gets combined key " | " - never the empty string the
guard tests - so it is clustered (cluster key " | ") and is returned as an
Exact match for a blank query instead of being excluded from every tier. -/
theorem C7_blank_key_not_excluded :
    (buildDataset [c7Record]).map (fun b => b.combinedKey) = [" | "] ∧
    (buildDataset [c7Record]).map (fun b => b.clusterKey) = [some " | "] ∧
    buildClusters ((keyedOf [c7Record]).map (fun t => t.2.2.2)) = [(" | ", [" | "])] ∧
    (matchQuery (buildDataset [c7Record]) " " " ").1 =
      some (MatchResult.exact (buildDataset [c7Record])) := by
  decide

/-! ## Ordering lemmas for the pandas descending sort -/

theorem insertionBy_mem {α : Type} (le : α → α → Bool) (x : α) :
    ∀ (l : List α) (y : α), y ∈ insertionBy le x l ↔ y = x ∨ y ∈ l := by
  intro l
  induction l with
  | nil => intro y; simp [insertionBy]
  | cons z zs ih =>
      intro y
      simp only [insertionBy]
      by_cases h : le x z
      · rw [if_pos h]; simp [List.mem_cons]
      · rw [if_neg h]
        simp only [List.mem_cons, ih]
        tauto

theorem sortByLe_mem {α : Type} (le : α → α → Bool) :
    ∀ (l : List α) (y : α), y ∈ sortByLe le l ↔ y ∈ l := by
  intro l
  induction l with
  | nil => intro y; simp [sortByLe]
  | cons z zs ih =>
      intro y
      simp only [sortByLe, List.foldr_cons]
      rw [show zs.foldr (insertionBy le) [] = sortByLe le zs from rfl] at *
      rw [insertionBy_mem, ih]
      simp [List.mem_cons]

theorem insertionBy_length {α : Type} (le : α → α → Bool) (x : α) :
    ∀ (l : List α), (insertionBy le x l).length = l.length + 1 := by
  intro l
  induction l with
  | nil => rfl
  | cons z zs ih =>
      simp only [insertionBy]
      by_cases h : le x z
      · rw [if_pos h]; simp
      · rw [if_neg h]; simp [ih]

theorem sortByLe_length {α : Type} (le : α → α → Bool) :
    ∀ (l : List α), (sortByLe le l).length = l.length := by
  intro l
  induction l with
  | nil => rfl
  | cons z zs ih =>
      simp only [sortByLe, List.foldr_cons]
      rw [show zs.foldr (insertionBy le) [] = sortByLe le zs from rfl,
        insertionBy_length, ih, List.length_cons]

theorem insertionBy_sorted {α : Type} (le : α → α → Bool)
    (htot : ∀ a b, le a b = true ∨ le b a = true)
    (htrans : ∀ a b c, le a b = true → le b c = true → le a c = true) (x : α) :
    ∀ (l : List α), l.Pairwise (fun a b => le a b = true) →
      (insertionBy le x l).Pairwise (fun a b => le a b = true) := by
  intro l
  induction l with
  | nil => intro h; simp [insertionBy]
  | cons z zs ih =>
      intro h
      obtain ⟨hz, hzs⟩ := List.pairwise_cons.mp h
      simp only [insertionBy]
      by_cases hle : le x z
      · rw [if_pos hle]
        refine List.pairwise_cons.mpr ⟨?_, h⟩
        intro b hb
        rcases List.mem_cons.mp hb with he | hm
        · subst he; exact hle
        · exact htrans x z b hle (hz b hm)
      · rw [if_neg hle]
        refine List.pairwise_cons.mpr ⟨?_, ih hzs⟩
        intro b hb
        rcases (insertionBy_mem le x zs b).mp hb with he | hm
        · subst he
          rcases htot z b with h' | h'
          · exact h'
          · exact absurd h' (by simpa using hle)
        · exact hz b hm

theorem sortByLe_sorted {α : Type} (le : α → α → Bool)
    (htot : ∀ a b, le a b = true ∨ le b a = true)
    (htrans : ∀ a b c, le a b = true → le b c = true → le a c = true) :
    ∀ (l : List α), (sortByLe le l).Pairwise (fun a b => le a b = true) := by
  intro l
  induction l with
  | nil => simp [sortByLe]
  | cons z zs ih =>
      simp only [sortByLe, List.foldr_cons]
      rw [show zs.foldr (insertionBy le) [] = sortByLe le zs from rfl]
      exact insertionBy_sorted le htot htrans z _ ih

/-! ## C4: the nearest tier -/

theorem overlapLe_total (a b : BuiltRow) :
    decide (overlapVal a ≤ overlapVal b) = true ∨
    decide (overlapVal b ≤ overlapVal a) = true := by
  rcases le_total (overlapVal a) (overlapVal b) with h | h
  · exact Or.inl (by simpa using h)
  · exact Or.inr (by simpa using h)

theorem overlapLe_trans (a b c : BuiltRow)
    (h1 : decide (overlapVal a ≤ overlapVal b) = true)
    (h2 : decide (overlapVal b ≤ overlapVal c) = true) :
    decide (overlapVal a ≤ overlapVal c) = true := by
  simp only [decide_eq_true_eq] at h1 h2 ⊢
  exact le_trans h1 h2

/-- C4: for a non-empty dataset, the nearest tier is the outcome only when
the exact tier and top2 are both empty, and in that case the outcome is a
single row carrying a maximal overlap among the rows scoring below 50. -/
theorem C4_nearest_tier (df : List BuiltRow) (d c : String) (hdf : df ≠ []) :
    (∀ rows, (matchQuery df d c).1 = some (MatchResult.nearest rows) →
      exactTier df (combinedKeyOf (normDiscOf d) (normCorrOf c)) = [] ∧
      top2Of (withOverlap (normDiscOf d) (normCorrOf c) df)
        (combinedKeyOf (normDiscOf d) (normCorrOf c)) = []) ∧
    (exactTier df (combinedKeyOf (normDiscOf d) (normCorrOf c)) = [] →
      top2Of (withOverlap (normDiscOf d) (normCorrOf c) df)
        (combinedKeyOf (normDiscOf d) (normCorrOf c)) = [] →
      ∃ r, (matchQuery df d c).1 = some (MatchResult.nearest [r]) ∧
        r ∈ withOverlap (normDiscOf d) (normCorrOf c) df ∧ overlapVal r < 50 ∧
        ∀ s ∈ withOverlap (normDiscOf d) (normCorrOf c) df,
          overlapVal s < 50 → overlapVal s ≤ overlapVal r) := by
  constructor
  · intro rows h
    rw [matchQuery_fst] at h
    unfold assembleResult at h
    split_ifs at h with h1 h2 h3 <;>
      first
        | exact ⟨not_not.mp (fun hc => h1 hc), not_not.mp (fun hc => h2 hc)⟩
        | simp at h
  · intro hex htop
    have hdf2 : withOverlap (normDiscOf d) (normCorrOf c) df ≠ [] := by
      intro hc
      exact hdf (List.map_eq_nil_iff.mp hc)
    have hall : ∀ s ∈ withOverlap (normDiscOf d) (normCorrOf c) df, overlapVal s < 50 := by
      intro s hs
      by_contra hge
      push_neg at hge
      by_cases hk : s.combinedKey = combinedKeyOf (normDiscOf d) (normCorrOf c)
      · obtain ⟨r0, hr0, hs0⟩ := List.mem_map.mp hs
        have hkey0 : r0.combinedKey = combinedKeyOf (normDiscOf d) (normCorrOf c) := by
          rw [← hk, ← hs0]
        have hmem : r0 ∈ exactTier df (combinedKeyOf (normDiscOf d) (normCorrOf c)) :=
          List.mem_filter.mpr ⟨hr0, by simp [hkey0]⟩
        rw [hex] at hmem
        simp at hmem
      · have hsA : s ∈ approxSet (withOverlap (normDiscOf d) (normCorrOf c) df)
            (combinedKeyOf (normDiscOf d) (normCorrOf c)) :=
          List.mem_filter.mpr ⟨hs, by simp [hge, hk]⟩
        have hsS : s ∈ sortDescOverlap (approxSet
            (withOverlap (normDiscOf d) (normCorrOf c) df)
            (combinedKeyOf (normDiscOf d) (normCorrOf c))) := by
          unfold sortDescOverlap
          rw [List.mem_reverse, sortByLe_mem]
          exact hsA
        unfold top2Of at htop
        match hS : sortDescOverlap (approxSet
            (withOverlap (normDiscOf d) (normCorrOf c) df)
            (combinedKeyOf (normDiscOf d) (normCorrOf c))) with
        | [] => rw [hS] at hsS; simp at hsS
        | a :: t => rw [hS] at htop; simp at htop
    have hF : (withOverlap (normDiscOf d) (normCorrOf c) df).filter
        (fun r => overlapVal r < 50) = withOverlap (normDiscOf d) (normCorrOf c) df := by
      apply List.filter_eq_self.mpr
      intro s hs
      simpa using hall s hs
    have hSrevne : (sortByLe (fun r s => decide (overlapVal r ≤ overlapVal s))
        ((withOverlap (normDiscOf d) (normCorrOf c) df).filter
          (fun r => overlapVal r < 50))).reverse ≠ [] := by
      intro hc
      rw [List.reverse_eq_nil_iff] at hc
      obtain ⟨x, hx⟩ := List.exists_mem_of_ne_nil _ hdf2
      have : x ∈ sortByLe (fun r s => decide (overlapVal r ≤ overlapVal s))
          ((withOverlap (normDiscOf d) (normCorrOf c) df).filter
            (fun r => overlapVal r < 50)) := by
        rw [sortByLe_mem, hF]
        exact hx
      rw [hc] at this
      simp at this
  
    match hrev : (sortByLe (fun r s => decide (overlapVal r ≤ overlapVal s))
        ((withOverlap (normDiscOf d) (normCorrOf c) df).filter
          (fun r => overlapVal r < 50))).reverse with
    | [] => exact absurd hrev hSrevne
    | r :: t =>
        refine ⟨r, ?_, ?_, ?_, ?_⟩
        · rw [matchQuery_fst]
          unfold assembleResult
          rw [if_neg (by simpa using hex), if_neg (by simpa using htop)]
          have hclosest : closestOf (withOverlap (normDiscOf d) (normCorrOf c) df)
              = [r] := by
            unfold closestOf sortDescOverlap
            rw [hrev]
            rfl
          rw [if_pos (by simp [hclosest]), hclosest]
        · have : r ∈ (sortByLe (fun r s => decide (overlapVal r ≤ overlapVal s))
              ((withOverlap (normDiscOf d) (normCorrOf c) df).filter
                (fun r => overlapVal r < 50))).reverse := by
            rw [hrev]; simp
          rw [List.mem_reverse, sortByLe_mem, hF] at this
          exact this
        · have : r ∈ (sortByLe (fun r s => decide (overlapVal r ≤ overlapVal s))
              ((withOverlap (normDiscOf d) (normCorrOf c) df).filter
                (fun r => overlapVal r < 50))).reverse := by
            rw [hrev]; simp
          rw [List.mem_reverse, sortByLe_mem, hF] at this
          exact hall r this
        · intro s hs hs50
          have hsS : s ∈ (sortByLe (fun r s => decide (overlapVal r ≤ overlapVal s))
              ((withOverlap (normDiscOf d) (normCorrOf c) df).filter
                (fun r => overlapVal r < 50))).reverse := by
            rw [List.mem_reverse, sortByLe_mem, hF]
            exact hs
          rw [hrev] at hsS
          rcases List.mem_cons.mp hsS with he | hm
          · subst he; exact le_refl _
          · have hsorted := sortByLe_sorted
              (fun r s => decide (overlapVal r ≤ overlapVal s))
              overlapLe_total overlapLe_trans
              ((withOverlap (normDiscOf d) (normCorrOf c) df).filter
                (fun r => overlapVal r < 50))
            have hrevsorted := (List.pairwise_reverse.mpr
              (hsorted.imp (fun h => h))).imp (fun {a b} h => h)
            rw [hrev] at hrevsorted
            have := (List.pairwise_cons.mp hrevsorted).1 s hm
            simpa using this

def c4Row : BuiltRow :=
  BuiltRow.mk "X Y" "Z W" 2 2019 "c4" "X Y" "Z W" "X Y | Z W" (some "X Y | Z W")
    (some 2) (some 1) (some 2) none

/-- Witness for C4 at a one-row dataset whose text shares nothing with the
query, so only the nearest tier can fire. -/
theorem C4_nearest_tier_witness :
    ([c4Row] : List BuiltRow) ≠ [] ∧
    ((∀ rows, (matchQuery [c4Row] "A" "B").1 = some (MatchResult.nearest rows) →
      exactTier [c4Row] (combinedKeyOf (normDiscOf "A") (normCorrOf "B")) = [] ∧
      top2Of (withOverlap (normDiscOf "A") (normCorrOf "B") [c4Row])
        (combinedKeyOf (normDiscOf "A") (normCorrOf "B")) = []) ∧
    (exactTier [c4Row] (combinedKeyOf (normDiscOf "A") (normCorrOf "B")) = [] →
      top2Of (withOverlap (normDiscOf "A") (normCorrOf "B") [c4Row])
        (combinedKeyOf (normDiscOf "A") (normCorrOf "B")) = [] →
      ∃ r, (matchQuery [c4Row] "A" "B").1 = some (MatchResult.nearest [r]) ∧
        r ∈ withOverlap (normDiscOf "A") (normCorrOf "B") [c4Row] ∧ overlapVal r < 50 ∧
        ∀ s ∈ withOverlap (normDiscOf "A") (normCorrOf "B") [c4Row],
          overlapVal s < 50 → overlapVal s ≤ overlapVal r)) :=
  ⟨by decide, C4_nearest_tier [c4Row] "A" "B" (by decide)⟩

/-! ## C3: the approximate tier -/

theorem insertionBy_perm {α : Type} (le : α → α → Bool) (x : α) :
    ∀ (l : List α), (insertionBy le x l).Perm (x :: l) := by
  intro l
  induction l with
  | nil => simp [insertionBy]
  | cons y ys ih =>
      simp only [insertionBy]
      by_cases h : le x y
      · rw [if_pos h]
      · rw [if_neg h]
        exact (ih.cons y).trans (List.Perm.swap x y ys)

theorem sortByLe_perm {α : Type} (le : α → α → Bool) :
    ∀ (l : List α), (sortByLe le l).Perm l := by
  intro l
  induction l with
  | nil => simp [sortByLe]
  | cons y ys ih =>
      simp only [sortByLe, List.foldr_cons]
      rw [show ys.foldr (insertionBy le) [] = sortByLe le ys from rfl]
      exact (insertionBy_perm le y (sortByLe le ys)).trans (ih.cons y)

theorem enumFrom_pairwise_lt {α : Type} :
    ∀ (l : List α) (n : Nat), (List.enumFrom n l).Pairwise (fun a b => a.1 < b.1) := by
  intro l
  induction l with
  | nil => intro n; simp
  | cons x xs ih =>
      intro n
      simp only [List.enumFrom]
      refine List.pairwise_cons.mpr ⟨?_, ih (n + 1)⟩
      intro y hy
      have := (List.mem_enumFrom hy).1
      omega

/-- The ascending (overlap, row index) lexicographic order underlying the
pandas ascending argsort of the Overlap column. -/
def leLexOv (x y : Nat × BuiltRow) : Bool :=
  decide (overlapVal x.2 < overlapVal y.2 ∨
    (overlapVal x.2 = overlapVal y.2 ∧ x.1 ≤ y.1))

theorem leLexOv_total (a b : Nat × BuiltRow) :
    leLexOv a b = true ∨ leLexOv b a = true := by
  unfold leLexOv
  rcases lt_trichotomy (overlapVal a.2) (overlapVal b.2) with h | h | h
  · exact Or.inl (by simp [h])
  · rcases le_total a.1 b.1 with h' | h'
    · exact Or.inl (by simp [h, h'])
    · exact Or.inr (by simp [h.symm, h'])
  · exact Or.inr (by simp [h])

theorem leLexOv_trans (a b c : Nat × BuiltRow)
    (h1 : leLexOv a b = true) (h2 : leLexOv b c = true) : leLexOv a c = true := by
  unfold leLexOv at h1 h2 ⊢
  simp only [decide_eq_true_eq] at h1 h2 ⊢
  rcases h1 with h1 | ⟨he1, hi1⟩
  · rcases h2 with h2 | ⟨he2, hi2⟩
    · exact Or.inl (h1.trans h2)
    · exact Or.inl (he2 ▸ h1)
  · rcases h2 with h2 | ⟨he2, hi2⟩
    · exact Or.inl (he1 ▸ h2)
    · exact Or.inr ⟨he1.trans he2, hi1.trans hi2⟩

theorem leOv_eq_leLexOv (x y : Nat × BuiltRow) (h : x.1 < y.1) :
    decide (overlapVal x.2 ≤ overlapVal y.2) = leLexOv x y := by
  unfold leLexOv
  apply decide_eq_decide.mpr
  constructor
  · intro hle
    rcases lt_or_eq_of_le hle with h' | h'
    · exact Or.inl h'
    · exact Or.inr ⟨h', Nat.le_of_lt h⟩
  · rintro (h' | ⟨h', -⟩)
    · exact le_of_lt h'
    · exact le_of_eq h'

theorem insertion_comm (x : Nat × BuiltRow) :
    ∀ (l : List (Nat × BuiltRow)), (∀ y ∈ l, x.1 < y.1) →
    insertionBy (fun r s => decide (overlapVal r ≤ overlapVal s)) x.2 (l.map Prod.snd)
      = (insertionBy leLexOv x l).map Prod.snd := by
  intro l
  induction l with
  | nil => intro h; rfl
  | cons y ys ih =>
      intro h
      simp only [List.map_cons, insertionBy]
      have heq : decide (overlapVal x.2 ≤ overlapVal y.2) = leLexOv x y :=
        leOv_eq_leLexOv x y (h y (by simp))
      by_cases hc : leLexOv x y = true
      · rw [if_pos hc, if_pos (heq.trans hc)]
        simp
      · rw [if_neg (fun hd => hc (heq.symm.trans hd)), if_neg hc]
        simp only [List.map_cons, List.cons.injEq, true_and]
        exact ih (fun z hz => h z (by simp [hz]))

theorem sort_comm :
    ∀ (l : List (Nat × BuiltRow)), l.Pairwise (fun a b => a.1 < b.1) →
    sortByLe (fun r s => decide (overlapVal r ≤ overlapVal s)) (l.map Prod.snd)
      = (sortByLe leLexOv l).map Prod.snd := by
  intro l
  induction l with
  | nil => intro h; rfl
  | cons x xs ih =>
      intro h
      obtain ⟨hx, hxs⟩ := List.pairwise_cons.mp h
      simp only [List.map_cons, sortByLe, List.foldr_cons]
      rw [show xs.foldr (insertionBy leLexOv) [] = sortByLe leLexOv xs from rfl,
        show (xs.map Prod.snd).foldr
            (insertionBy (fun r s => decide (overlapVal r ≤ overlapVal s))) []
          = sortByLe (fun r s => decide (overlapVal r ≤ overlapVal s)) (xs.map Prod.snd)
          from rfl,
        ih hxs]
      exact insertion_comm x (sortByLe leLexOv xs)
        (fun y hy => hx y ((sortByLe_mem leLexOv xs y).mp hy))

/-- top2 is the first two rows of the reversed stable ascending
(overlap, row index) sort of the approximate candidates. -/
theorem top2_characterization (df2 : List BuiltRow) (key : String) :
    top2Of df2 key =
      (((sortByLe leLexOv (approxSet df2 key).enum).reverse).map Prod.snd).take 2 := by
  unfold top2Of sortDescOverlap
  rw [show sortByLe (fun r s => decide (overlapVal r ≤ overlapVal s)) (approxSet df2 key)
      = (sortByLe leLexOv (approxSet df2 key).enum).map Prod.snd from by
    have h := sort_comm (approxSet df2 key).enum (enumFrom_pairwise_lt _ 0)
    rw [List.enum_map_snd] at h
    exact h]
  rw [← List.map_reverse]

/-- C3 (amended): with no exact match and a non-empty approximate
candidate set, the approximate tier is the first two entries of the unique
ordering of the candidates that descends by overlap score and breaks ties
by descending (reverse) original row order; it has at most two rows, each
scoring at least 50 with a combined key different from the query's. -/
theorem C3_approximate_tier (df : List BuiltRow) (d c : String)
    (hex : exactTier df (combinedKeyOf (normDiscOf d) (normCorrOf c)) = [])
    (hA : approxSet (withOverlap (normDiscOf d) (normCorrOf c) df)
      (combinedKeyOf (normDiscOf d) (normCorrOf c)) ≠ []) :
    ∃ L : List (Nat × BuiltRow),
      L.Perm (approxSet (withOverlap (normDiscOf d) (normCorrOf c) df)
        (combinedKeyOf (normDiscOf d) (normCorrOf c))).enum ∧
      L.Pairwise (fun x y => overlapVal y.2 < overlapVal x.2 ∨
        (overlapVal x.2 = overlapVal y.2 ∧ y.1 < x.1)) ∧
      (matchQuery df d c).1 =
        some (MatchResult.approximate ((L.map Prod.snd).take 2)) ∧
      ((L.map Prod.snd).take 2).length ≤ 2 ∧
      (∀ r ∈ (L.map Prod.snd).take 2, 50 ≤ overlapVal r ∧
        r.combinedKey ≠ combinedKeyOf (normDiscOf d) (normCorrOf c)) := by
  refine ⟨(sortByLe leLexOv (approxSet (withOverlap (normDiscOf d) (normCorrOf c) df)
    (combinedKeyOf (normDiscOf d) (normCorrOf c))).enum).reverse, ?_, ?_, ?_, ?_, ?_⟩
  · exact (List.reverse_perm _).trans (sortByLe_perm leLexOv _)
  · have hsorted : (sortByLe leLexOv (approxSet (withOverlap (normDiscOf d)
        (normCorrOf c) df) (combinedKeyOf (normDiscOf d) (normCorrOf c))).enum).Pairwise
        (fun a b => leLexOv a b = true) :=
      sortByLe_sorted leLexOv leLexOv_total leLexOv_trans _
    have hrev : ((sortByLe leLexOv (approxSet (withOverlap (normDiscOf d)
        (normCorrOf c) df) (combinedKeyOf (normDiscOf d) (normCorrOf c))).enum).reverse).Pairwise
        (fun a b => leLexOv b a = true) := by
      rw [List.pairwise_reverse]
      exact hsorted
    have hidx : ((sortByLe leLexOv (approxSet (withOverlap (normDiscOf d)
        (normCorrOf c) df) (combinedKeyOf (normDiscOf d) (normCorrOf c))).enum).reverse).Pairwise
        (fun a b => a.1 ≠ b.1) := by
      have hE : ((approxSet (withOverlap (normDiscOf d) (normCorrOf c) df)
          (combinedKeyOf (normDiscOf d) (normCorrOf c))).enum).Pairwise
          (fun a b => a.1 ≠ b.1) :=
        (enumFrom_pairwise_lt _ 0).imp (fun h => Nat.ne_of_lt h)
      have hperm := (List.reverse_perm (sortByLe leLexOv (approxSet (withOverlap
        (normDiscOf d) (normCorrOf c) df) (combinedKeyOf (normDiscOf d)
        (normCorrOf c))).enum)).trans (sortByLe_perm leLexOv _)
      exact (hperm.pairwise_iff (fun h => Ne.symm h)).mpr hE
    refine (hrev.and hidx).imp ?_
    rintro a b ⟨hf, hne⟩
    simp only [leLexOv, decide_eq_true_eq] at hf
    rcases hf with hlt | ⟨heq, hle⟩
    · exact Or.inl hlt
    · exact Or.inr ⟨heq.symm, lt_of_le_of_ne hle (fun hc => hne hc.symm)⟩
  · have htop := top2_characterization (withOverlap (normDiscOf d) (normCorrOf c) df)
      (combinedKeyOf (normDiscOf d) (normCorrOf c))
    have hlen : ((((sortByLe leLexOv (approxSet (withOverlap (normDiscOf d)
        (normCorrOf c) df) (combinedKeyOf (normDiscOf d)
        (normCorrOf c))).enum).reverse).map Prod.snd)).length =
        (approxSet (withOverlap (normDiscOf d) (normCorrOf c) df)
          (combinedKeyOf (normDiscOf d) (normCorrOf c))).length := by
      rw [List.length_map, List.length_reverse, sortByLe_length, List.enum_length]
    have hne2 : top2Of (withOverlap (normDiscOf d) (normCorrOf c) df)
        (combinedKeyOf (normDiscOf d) (normCorrOf c)) ≠ [] := by
      rw [htop]
      intro hc
      have h0 := congrArg List.length hc
      rw [List.length_take, hlen] at h0
      simp only [List.length_nil] at h0
      rcases Nat.min_eq_zero_iff.mp h0 with h2 | h2
      · simp at h2
      · exact hA (List.eq_nil_of_length_eq_zero h2)
    rw [matchQuery_fst]
    unfold assembleResult
    rw [if_neg (not_not_intro hex), if_pos hne2, htop]
  · rw [List.length_take]
    exact Nat.min_le_left _ _
  · intro r hr
    have hrL : r ∈ ((sortByLe leLexOv (approxSet (withOverlap (normDiscOf d)
        (normCorrOf c) df) (combinedKeyOf (normDiscOf d)
        (normCorrOf c))).enum).reverse).map Prod.snd := List.mem_of_mem_take hr
    obtain ⟨p, hp, hpr⟩ := List.mem_map.mp hrL
    have hpE : p ∈ (approxSet (withOverlap (normDiscOf d) (normCorrOf c) df)
        (combinedKeyOf (normDiscOf d) (normCorrOf c))).enum := by
      have hperm := (List.reverse_perm (sortByLe leLexOv (approxSet (withOverlap
        (normDiscOf d) (normCorrOf c) df) (combinedKeyOf (normDiscOf d)
        (normCorrOf c))).enum)).trans (sortByLe_perm leLexOv _)
      exact hperm.subset hp
    have hpA : p.2 ∈ approxSet (withOverlap (normDiscOf d) (normCorrOf c) df)
        (combinedKeyOf (normDiscOf d) (normCorrOf c)) := by
      obtain ⟨-, hlt, hget⟩ := List.mem_enumFrom hpE
      rw [hget]
      exact List.getElem_mem _
    subst hpr
    simp only [approxSet, List.mem_filter, decide_eq_true_eq] at hpA
    exact hpA.2

def c3RowA : BuiltRow :=
  BuiltRow.mk "A B" "C X" 1 2018 "r0" "A B" "C X" "A B | C X" (some "A B | C X")
    (some 1) (some 1) (some 1) none

def c3RowB : BuiltRow :=
  BuiltRow.mk "A B" "C X" 2 2018 "r1" "A B" "C X" "A B | C X" (some "A B | C X")
    (some 2) (some 1) (some 2) none

/-- C3 counterexample to the stable tie-break: two rows tied at overlap 75
come back in reverse row order (row 1 before row 0), not in original row
order as the claim states. -/
theorem C3_tie_order_counterexample :
    (matchQuery [c3RowA, c3RowB] "A B" "C D").1 =
      some (MatchResult.approximate
        [{c3RowB with overlap := some 75}, {c3RowA with overlap := some 75}]) ∧
    ({c3RowB with overlap := some 75} : BuiltRow) ≠ {c3RowA with overlap := some 75} ∧
    (matchQuery [c3RowA, c3RowB] "A B" "C D").1 ≠
      some (MatchResult.approximate
        [{c3RowA with overlap := some 75}, {c3RowB with overlap := some 75}]) := by
  decide

/-- Witness for C3 at the tied two-row dataset. -/
theorem C3_approximate_tier_witness :
    (exactTier [c3RowA, c3RowB] (combinedKeyOf (normDiscOf "A B") (normCorrOf "C D"))
      = []) ∧
    (approxSet (withOverlap (normDiscOf "A B") (normCorrOf "C D") [c3RowA, c3RowB])
      (combinedKeyOf (normDiscOf "A B") (normCorrOf "C D")) ≠ []) ∧
    (∃ L : List (Nat × BuiltRow),
      L.Perm (approxSet (withOverlap (normDiscOf "A B") (normCorrOf "C D")
        [c3RowA, c3RowB])
        (combinedKeyOf (normDiscOf "A B") (normCorrOf "C D"))).enum ∧
      L.Pairwise (fun x y => overlapVal y.2 < overlapVal x.2 ∨
        (overlapVal x.2 = overlapVal y.2 ∧ y.1 < x.1)) ∧
      (matchQuery [c3RowA, c3RowB] "A B" "C D").1 =
        some (MatchResult.approximate ((L.map Prod.snd).take 2)) ∧
      ((L.map Prod.snd).take 2).length ≤ 2 ∧
      (∀ r ∈ (L.map Prod.snd).take 2, 50 ≤ overlapVal r ∧
        r.combinedKey ≠ combinedKeyOf (normDiscOf "A B") (normCorrOf "C D"))) :=
  ⟨by decide, by decide,
    C3_approximate_tier [c3RowA, c3RowB] "A B" "C D" (by decide) (by decide)⟩

/-! ## C6: idempotence of normalize_text

The proof that one normalization pass reaches a fixed point: the scan
leaves no date match behind (in any word-boundary context), whitespace
collapsing and trimming cannot create one, and the collapsed trimmed
uppercase string is untouched by a second pass. -/

theorem isWordChar_of_isDigit {c : Char} (h : c.isDigit = true) : isWordChar c = true := by
  simp only [isWordChar, Char.isAlphanum, Bool.or_eq_true]
  exact Or.inl (Or.inr h)

theorem not_isWordChar_of_isSepChar {c : Char} (h : isSepChar c = true) :
    isWordChar c = false := by
  simp only [isSepChar, Bool.or_eq_true, decide_eq_true_eq] at h
  rcases h with h | h <;> subst h <;> decide

theorem not_isWhitespace_of_isDigit {c : Char} (h : c.isDigit = true) :
    c.isWhitespace = false := by
  by_contra hw
  simp only [Bool.not_eq_false] at hw
  simp only [Char.isWhitespace, Bool.or_eq_true, decide_eq_true_eq] at hw
  rcases hw with ((h1 | h1) | h1) | h1 <;> subst h1 <;> simp [Char.isDigit] at h

theorem not_isWhitespace_of_isSepChar {c : Char} (h : isSepChar c = true) :
    c.isWhitespace = false := by
  simp only [isSepChar, Bool.or_eq_true, decide_eq_true_eq] at h
  rcases h with h | h <;> subst h <;> decide

theorem not_isWordChar_of_isWhitespace {c : Char} (h : c.isWhitespace = true) :
    isWordChar c = false := by
  simp only [Char.isWhitespace, Bool.or_eq_true, decide_eq_true_eq] at h
  rcases h with ((h1 | h1) | h1) | h1 <;> subst h1 <;> decide

theorem DateShape.headBound {m r : List Char} (hs : DateShape m r) :
    headBoundary r = true := by
  obtain ⟨d1, s1, d2, s2, d3, -, -, -, -, -, -, -, -, -, -, -, -, hb⟩ := hs
  exact hb

theorem DateShape.congr_rest {m r r' : List Char} (hs : DateShape m r)
    (hb : headBoundary r' = true) : DateShape m r' := by
  obtain ⟨d1, s1, d2, s2, d3, hm, a1, a2, a3, a4, a5, a6, g1, g2, g3, g4, g5, -⟩ := hs
  exact ⟨d1, s1, d2, s2, d3, hm, a1, a2, a3, a4, a5, a6, g1, g2, g3, g4, g5, hb⟩

theorem DateShape.chars {m r : List Char} (hs : DateShape m r) :
    ∀ c ∈ m, c.isDigit = true ∨ isSepChar c = true := by
  obtain ⟨d1, s1, d2, s2, d3, hm, -, -, -, -, -, -, g1, g2, g3, g4, g5, -⟩ := hs
  intro c hc
  rw [hm] at hc
  rcases List.mem_append.mp hc with h | h
  · exact Or.inl (g1 c h)
  · rcases List.mem_cons.mp h with h | h
    · subst h; exact Or.inr g4
    · rcases List.mem_append.mp h with h | h
      · exact Or.inl (g2 c h)
      · rcases List.mem_cons.mp h with h | h
        · subst h; exact Or.inr g5
        · exact Or.inl (g3 c h)

theorem DateShape.head_digit {m r : List Char} (hs : DateShape m r) :
    ∀ c, m.head? = some c → c.isDigit = true := by
  obtain ⟨d1, s1, d2, s2, d3, hm, a1, -, -, -, -, -, g1, -, -, -, -, -⟩ := hs
  intro c hc
  rcases d1 with - | ⟨x, t⟩
  · simp at a1
  · rw [hm] at hc
    simp only [List.cons_append, List.head?_cons, Option.some.injEq] at hc
    subst hc
    exact g1 _ (by simp)

theorem DateShape.last_digit {m r : List Char} (hs : DateShape m r) :
    ∀ c, m.getLast? = some c → c.isDigit = true := by
  obtain ⟨d1, s1, d2, s2, d3, hm, -, -, -, -, a5, -, -, -, g3, -, -, -⟩ := hs
  intro c hc
  have hd3 : d3 ≠ [] := by
    intro h
    rw [h] at a5
    simp at a5
  have he : m.getLast? = d3.getLast? := by
    rw [hm, List.getLast?_append_of_ne_nil _ (by simp),
      show (s1 :: (d2 ++ s2 :: d3) : List Char) = [s1] ++ (d2 ++ s2 :: d3) from rfl,
      List.getLast?_append_of_ne_nil _ (by simp),
      List.getLast?_append_of_ne_nil _ (by simp [hd3]),
      show (s2 :: d3 : List Char) = [s2] ++ d3 from rfl,
      List.getLast?_append_of_ne_nil _ hd3]
  rw [he] at hc
  exact g3 c (List.mem_of_mem_getLast? hc)

theorem chainDigits_of_all {l : List Char} (h : ∀ c ∈ l, c.isDigit = true) :
    List.Chain' (fun a b => a.isDigit = true ∨ b.isDigit = true) l := by
  induction l with
  | nil => simp
  | cons x t ih =>
      match t with
      | [] => simp
      | y :: t' =>
          rw [List.chain'_cons]
          exact ⟨Or.inl (h x (by simp)), ih (fun c hc => h c (by simp [hc]))⟩

theorem chain'_adj {α : Type} {P : α → α → Prop} :
    ∀ (u : List α) {x y : α} {v l : List α}, l = u ++ x :: y :: v →
      List.Chain' P l → P x y := by
  intro u
  induction u with
  | nil =>
      intro x y v l hl hc
      subst hl
      exact (List.chain'_cons.mp hc).1
  | cons a u ih =>
      intro x y v l hl hc
      subst hl
      exact ih rfl (List.Chain'.tail hc)

theorem DateShape.chain {m r : List Char} (hs : DateShape m r) :
    List.Chain' (fun a b => a.isDigit = true ∨ b.isDigit = true) m := by
  obtain ⟨d1, s1, d2, s2, d3, hm, a1, -, a3, -, a5, -, g1, g2, g3, -, -, -⟩ := hs
  have hd1 : d1 ≠ [] := by intro h; rw [h] at a1; simp at a1
  have hd2 : d2 ≠ [] := by intro h; rw [h] at a3; simp at a3
  have hd3 : d3 ≠ [] := by intro h; rw [h] at a5; simp at a5
  subst hm
  rw [List.chain'_append]
  refine ⟨chainDigits_of_all g1, ?_, ?_⟩
  · rw [show (s1 :: (d2 ++ s2 :: d3) : List Char) = [s1] ++ (d2 ++ s2 :: d3) from rfl,
      List.chain'_append]
    refine ⟨by simp, ?_, ?_⟩
    · rw [List.chain'_append]
      refine ⟨chainDigits_of_all g2, ?_, ?_⟩
      · rw [show (s2 :: d3 : List Char) = [s2] ++ d3 from rfl, List.chain'_append]
        refine ⟨by simp, chainDigits_of_all g3, ?_⟩
        intro x hx y hy
        exact Or.inr (g3 y (List.mem_of_mem_head? hy))
      · intro x hx y hy
        exact Or.inl (g2 x (List.mem_of_mem_getLast? hx))
    · intro x hx y hy
      right
      apply g2
      rcases d2 with - | ⟨z, t⟩
      · exact absurd rfl hd2
      · simp only [List.cons_append, List.head?_cons, Option.mem_def,
          Option.some.injEq] at hy
        subst hy
        simp
  · intro x hx y hy
    exact Or.inl (g1 x (List.mem_of_mem_getLast? hx))

/-- No two adjacent characters of a date match are both non-digits. -/
theorem DateShape.adj {m r : List Char} (hs : DateShape m r)
    {u : List Char} {x y : Char} {v : List Char} (h : m = u ++ x :: y :: v) :
    x.isDigit = true ∨ y.isDigit = true :=
  chain'_adj u h hs.chain

theorem headBoundary_iff {l : List Char} :
    headBoundary l = true ↔ ∀ c, l.head? = some c → isWordChar c = false := by
  cases l with
  | nil => simp [headBoundary]
  | cons c t =>
      simp only [headBoundary, List.head?_cons, Option.some.injEq, Bool.not_eq_true']
      constructor
      · intro h x hx; rw [← hx]; exact h
      · intro h; exact h c rfl

theorem tryDate_none_of_head {l : List Char}
    (h : ∀ c, l.head? = some c → c.isDigit = false) : tryDate l = none := by
  match ht : tryDate l with
  | none => rfl
  | some (m, r) =>
      exfalso
      obtain ⟨he, hshape⟩ := tryDate_spec ht
      rcases m with - | ⟨x, t⟩
      · exact hshape.m_ne_nil rfl
      · have hx : l.head? = some x := by rw [he]; rfl
        have := hshape.head_digit x rfl
        rw [h x hx] at this
        exact Bool.false_ne_true this

theorem tryDate_isSome_append_ws {b w : List Char} (hw : ∀ c ∈ w, c.isWhitespace = true)
    (h : (tryDate b).isSome = true) : (tryDate (b ++ w)).isSome = true := by
  rw [Option.isSome_iff_exists] at h
  obtain ⟨⟨m, r⟩, ht⟩ := h
  obtain ⟨he, hshape⟩ := tryDate_spec ht
  have hb' : headBoundary (r ++ w) = true := by
    rcases r with - | ⟨c, t⟩
    · rcases w with - | ⟨c, t⟩
      · rfl
      · simp only [List.nil_append, headBoundary, Bool.not_eq_true']
        exact not_isWordChar_of_isWhitespace (hw c (by simp))
    · have := hshape.headBound
      simpa [headBoundary] using this
  have := tryDate_isSome_of_shape (hshape.congr_rest hb')
  rw [he, List.append_assoc]
  exact this

theorem collapseGo_false_nonws_prefix {u : List Char}
    (hu : ∀ c ∈ u, c.isWhitespace = false) (v : List Char) :
    collapseGo false (u ++ v) = u ++ collapseGo false v := by
  induction u with
  | nil => rfl
  | cons c t ih =>
      have hc : c.isWhitespace = false := hu c (by simp)
      simp only [List.cons_append, collapseGo, hc, Bool.false_eq_true, if_false,
        List.append_eq]
      rw [ih (fun x hx => hu x (by simp [hx]))]

theorem collapseGo_false_head_space {v : List Char}
    (hv : ∀ c, v.head? = some c → c.isWhitespace = true) :
    collapseGo false v = [] ∨ ∃ t, collapseGo false v = ' ' :: t := by
  rcases v with - | ⟨c, t⟩
  · exact Or.inl rfl
  · right
    have hc := hv c rfl
    simp only [collapseGo, hc, if_true]
    exact ⟨collapseGo true t, rfl⟩

theorem tryDate_isSome_of_collapse {m : List Char}
    (h : (tryDate (collapseWS m)).isSome = true) : (tryDate m).isSome = true := by
  have hsplit : m = m.takeWhile (fun c => !c.isWhitespace)
      ++ m.dropWhile (fun c => !c.isWhitespace) :=
    (List.takeWhile_append_dropWhile _ _).symm
  have hu : ∀ c ∈ m.takeWhile (fun c => !c.isWhitespace), c.isWhitespace = false := by
    intro c hc
    have := List.mem_takeWhile_imp hc
    simpa using this
  have hv : ∀ c, (m.dropWhile (fun c => !c.isWhitespace)).head? = some c →
      c.isWhitespace = true := by
    intro c hc
    have h2 := List.head?_dropWhile_not (fun c => !c.isWhitespace) m
    rw [hc] at h2
    simpa using h2
  have hcm : collapseWS m = m.takeWhile (fun c => !c.isWhitespace)
      ++ collapseGo false (m.dropWhile (fun c => !c.isWhitespace)) := by
    conv_lhs => rw [show collapseWS m = collapseGo false m from rfl, hsplit]
    exact collapseGo_false_nonws_prefix hu _
  rw [Option.isSome_iff_exists] at h
  obtain ⟨⟨m2, r2⟩, ht⟩ := h
  obtain ⟨he, hshape⟩ := tryDate_spec ht
  rw [hcm] at he
  have hnws : ∀ c ∈ m2, c.isWhitespace = false := by
    intro c hc
    rcases hshape.chars c hc with h' | h'
    · exact not_isWhitespace_of_isDigit h'
    · exact not_isWhitespace_of_isSepChar h'
  rcases List.append_eq_append_iff.mp he with ⟨a, hm2, hcv⟩ | ⟨c', hu2, hr2⟩
  · rcases a with - | ⟨x, t⟩
    · simp only [List.append_nil] at hm2
      have hbv : headBoundary (m.dropWhile (fun c => !c.isWhitespace)) = true := by
        rw [headBoundary_iff]
        intro c hc
        exact not_isWordChar_of_isWhitespace (hv c hc)
      have h3 := tryDate_isSome_of_shape (hshape.congr_rest hbv)
      rw [hm2] at h3
      conv_lhs => rw [hsplit]
      exact h3
    · exfalso
      have hx : x ∈ m2 := by rw [hm2]; simp
      have hxcv : (collapseGo false (m.dropWhile (fun c => !c.isWhitespace))).head?
          = some x := by rw [hcv]; rfl
      rcases collapseGo_false_head_space hv with h0 | ⟨t', h0⟩
      · rw [h0] at hxcv; simp at hxcv
      · rw [h0] at hxcv
        simp only [List.head?_cons, Option.some.injEq] at hxcv
        have := hnws x hx
        rw [← hxcv] at this
        simp at this
  · have hbr : headBoundary (c' ++ m.dropWhile (fun c => !c.isWhitespace)) = true := by
      rcases c' with - | ⟨x, t⟩
      · rw [headBoundary_iff]
        intro c hc
        simp only [List.nil_append] at hc
        exact not_isWordChar_of_isWhitespace (hv c hc)
      · have : r2.head? = some x := by rw [hr2]; rfl
        have hb := hshape.headBound
        rw [headBoundary_iff] at hb
        rw [headBoundary_iff]
        intro c hc
        simp only [List.cons_append, List.head?_cons, Option.some.injEq] at hc
        subst hc
        exact hb _ this
    have h3 := tryDate_isSome_of_shape (hshape.congr_rest hbr)
    conv_lhs => rw [hsplit, hu2, List.append_assoc]
    exact h3

/-- No date match at any position of l, where the word-boundary context of
position 0 is p (the character preceding l, none at the string start). -/
def NoDateFrom (p : Option Char) (l : List Char) : Prop :=
  ∀ a b, l = a ++ b → prevBoundary (a.getLast?.or p) = true → tryDate b = none

theorem ctx_append (x a : List Char) (p : Option Char) :
    ((x ++ a).getLast?).or p = (a.getLast?).or ((x.getLast?).or p) := by
  rcases a with - | ⟨c, t⟩
  · simp
  · rw [List.getLast?_append_of_ne_nil _ (by simp)]
    rcases hl : (c :: t).getLast? with - | w
    · simp at hl
    · rfl

theorem ctx_cons (c : Char) (a : List Char) (p : Option Char) :
    ((c :: a).getLast?).or p = (a.getLast?).or (some c) := by
  rw [show (c :: a) = [c] ++ a from rfl, ctx_append]
  rfl

theorem NoDateFrom.restrict {p : Option Char} {x y : List Char}
    (h : NoDateFrom p (x ++ y)) : NoDateFrom ((x.getLast?).or p) y := by
  intro a b hab hb
  refine h (x ++ a) b (by rw [hab, List.append_assoc]) ?_
  rw [ctx_append]
  exact hb

theorem NoDateFrom.restrict_cons {p : Option Char} {c : Char} {y : List Char}
    (h : NoDateFrom p (c :: y)) : NoDateFrom (some c) y := by
  have := @NoDateFrom.restrict p [c] y h
  simpa using this

/-- The scan output decomposes at the first removed match: either nothing
was removed, or the input splits as kept prefix, match, remainder, with
the word boundary that licensed the removal, and the scan continues after
the match with its last digit as context. -/
theorem scanDates_decomp : ∀ (l : List Char) (p : Option Char),
    scanDates p l = l ∨
    ∃ pre m rem d, l = pre ++ m ++ rem ∧
      scanDates p l = pre ++ scanDates (some d) rem ∧
      prevBoundary ((pre.getLast?).or p) = true ∧ DateShape m rem ∧
      isWordChar d = true := by
  intro l
  induction l with
  | nil => intro p; exact Or.inl rfl
  | cons c rest ih =>
      intro p
      by_cases hb : prevBoundary p = true
      · match ht : tryDate (c :: rest) with
        | some (m, rem) =>
            obtain ⟨he, hshape⟩ := tryDate_spec ht
            right
            refine ⟨[], m, rem, m.getLastD c, by simpa using he,
              scanDates_match hb ht, by simpa using hb, hshape, ?_⟩
            rcases hm : m.getLast? with - | w
            · exact absurd (List.getLast?_eq_none_iff.mp hm) hshape.m_ne_nil
            · have : m.getLastD c = w := by
                rw [List.getLastD_eq_getLast?, hm]
                rfl
              rw [this]
              exact isWordChar_of_isDigit (hshape.last_digit w hm)
        | none =>
            have hk := @scanDates_keep p c rest (Or.inr ht)
            rcases ih (some c) with h1 | ⟨pre, m, rem, d, h1, h2, h3, h4, h5⟩
            · left
              rw [hk, h1]
            · right
              refine ⟨c :: pre, m, rem, d, by rw [h1]; simp, ?_, ?_, h4, h5⟩
              · rw [hk, h2]
                rfl
              · rw [ctx_cons]
                exact h3
      · have hk := @scanDates_keep p c rest
          (Or.inl (by simpa using hb))
        rcases ih (some c) with h1 | ⟨pre, m, rem, d, h1, h2, h3, h4, h5⟩
        · left
          rw [hk, h1]
        · right
          refine ⟨c :: pre, m, rem, d, by rw [h1]; simp, ?_, ?_, h4, h5⟩
          · rw [hk, h2]
            rfl
          · rw [ctx_cons]
            exact h3

/-- The scan does not change the head character when the context is a word
character (the boundary fails at position 0, so the head is kept). -/
theorem scanDates_head_of_word {q : Char} (hq : isWordChar q = true) (l : List Char) :
    (scanDates (some q) l).head? = l.head? := by
  rcases l with - | ⟨c, t⟩
  · rfl
  · rw [scanDates_keep (Or.inl (by simp [prevBoundary, hq]))]
    rfl

theorem not_isDigit_of_not_isWordChar {c : Char} (h : isWordChar c = false) :
    c.isDigit = false := by
  by_contra hd
  simp only [Bool.not_eq_false] at hd
  rw [isWordChar_of_isDigit hd] at h
  simp at h

/-- If no date matches at the head of l in context p, none matches at the
head of the scanned output either: a new match would have to cross the
junction left by a removal, and the characters on both sides of a junction
are non-word characters while adjacent match characters cannot both be. -/
theorem scanDates_headSafe {p : Option Char} {l : List Char}
    (hsafe : prevBoundary p = true → tryDate l = none) (hb : prevBoundary p = true) :
    tryDate (scanDates p l) = none := by
  rcases scanDates_decomp l p with h1 | ⟨pre, m, rem, d, h1, h2, h3, h4, h5⟩
  · rw [h1]
    exact hsafe hb
  · rw [h2]
    match ht : tryDate (pre ++ scanDates (some d) rem) with
    | none => rfl
    | some (m2, r2) =>
        exfalso
        obtain ⟨he, hs2⟩ := tryDate_spec ht
        have hhead : (scanDates (some d) rem).head? = rem.head? :=
          scanDates_head_of_word h5 rem
        have hpre_last : pre ≠ [] → ∀ w, pre.getLast? = some w → isWordChar w = false := by
          intro _ w hw
          rw [hw] at h3
          simpa [prevBoundary] using h3
        have hcontra_eq : pre = m2 → False := by
          intro hpm
          rcases hpm2 : m2.getLast? with - | w
          · exact hs2.m_ne_nil (List.getLast?_eq_none_iff.mp hpm2)
          · have hdig := hs2.last_digit w hpm2
            have hword := hpre_last (by
                intro hc
                rw [← hpm, hc] at hpm2
                simp at hpm2) w (by rw [hpm]; exact hpm2)
            rw [isWordChar_of_isDigit hdig] at hword
            simp at hword
        rcases List.append_eq_append_iff.mp he with ⟨a, hm2, hsr⟩ | ⟨c', hpre, hr2⟩
        · rcases a with - | ⟨ha, a'⟩
          · simp only [List.append_nil] at hm2
            exact hcontra_eq hm2.symm
          · have hhA : isWordChar ha = false := by
              have h6 : (scanDates (some d) rem).head? = some ha := by
                rw [hsr]; rfl
              rw [hhead] at h6
              have := h4.headBound
              rw [headBoundary_iff] at this
              exact this ha h6
            rcases hp : pre with - | ⟨pc, pt⟩
            · rw [hp] at hm2
              simp only [List.nil_append] at hm2
              have := hs2.head_digit ha (by rw [hm2]; rfl)
              rw [not_isDigit_of_not_isWordChar hhA] at this
              simp at this
            · have hpne : pre ≠ [] := by rw [hp]; simp
              have hwlast : ∃ w, pre.getLast? = some w := by
                rcases hq : pre.getLast? with - | w
                · exact absurd (List.getLast?_eq_none_iff.mp hq) hpne
                · exact ⟨w, rfl⟩
              obtain ⟨w, hw⟩ := hwlast
              have hwnw := hpre_last hpne w hw
              have hsplitpre : pre = pre.dropLast ++ [w] := by
                conv_lhs => rw [← List.dropLast_append_getLast hpne]
                congr 1
                rw [List.getLast?_eq_getLast pre hpne] at hw
                simp only [Option.some.injEq] at hw
                rw [hw]
              have hm2split : m2 = pre.dropLast ++ w :: ha :: a' := by
                rw [hm2, hsplitpre]
                simp
              rcases hs2.adj hm2split with hd1 | hd1
              · rw [not_isDigit_of_not_isWordChar hwnw] at hd1
                simp at hd1
              · rw [not_isDigit_of_not_isWordChar hhA] at hd1
                simp at hd1
        · rcases c' with - | ⟨cc, ct⟩
          · simp only [List.append_nil] at hpre
            exact hcontra_eq hpre
          · have hbr : headBoundary ((cc :: ct) ++ (m ++ rem)) = true := by
              rw [headBoundary_iff]
              intro x hx
              simp only [List.cons_append, List.head?_cons, Option.some.injEq] at hx
              subst hx
              have hx2 : r2.head? = some cc := by rw [hr2]; rfl
              have := hs2.headBound
              rw [headBoundary_iff] at this
              exact this cc hx2
            have h7 := tryDate_isSome_of_shape (hs2.congr_rest hbr)
            have hl2 : l = m2 ++ ((cc :: ct) ++ (m ++ rem)) := by
              rw [h1, hpre]
              simp
            rw [← hl2] at h7
            rw [hsafe hb] at h7
            simp at h7

theorem tryDate_nil : tryDate [] = none := by decide

theorem DateShape.getLastD_word {m r : List Char} (hs : DateShape m r) (c : Char) :
    isWordChar (m.getLastD c) = true := by
  rcases hm : m.getLast? with - | w
  · exact absurd (List.getLast?_eq_none_iff.mp hm) hs.m_ne_nil
  · have he : m.getLastD c = w := by
      rw [List.getLastD_eq_getLast?, hm]
      rfl
    rw [he]
    exact isWordChar_of_isDigit (hs.last_digit w hm)

theorem scanDates_noDate_aux : ∀ (n : Nat) (l : List Char), l.length ≤ n →
    ∀ (p : Option Char), NoDateFrom p (scanDates p l) := by
  intro n
  induction n with
  | zero =>
      intro l hl p
      have he : l = [] := List.eq_nil_of_length_eq_zero (by omega)
      subst he
      intro a b hab _
      rw [scanDates_nil] at hab
      have hb2 : b = [] := by
        rcases List.append_eq_nil.mp hab.symm with ⟨-, h⟩
        exact h
      rw [hb2]
      exact tryDate_nil
  | succ n ih =>
      intro l hl p
      match l with
      | [] =>
          intro a b hab _
          rw [scanDates_nil] at hab
          have hb2 : b = [] := by
            rcases List.append_eq_nil.mp hab.symm with ⟨-, h⟩
            exact h
          rw [hb2]
          exact tryDate_nil
      | c :: rest =>
          simp only [List.length_cons] at hl
          by_cases hb : prevBoundary p = true
          · match ht : tryDate (c :: rest) with
            | some (m, rem) =>
                rw [scanDates_match hb ht]
                obtain ⟨he, hshape⟩ := tryDate_spec ht
                have hd : isWordChar (m.getLastD c) = true := hshape.getLastD_word c
                have hrem_len : rem.length ≤ n := by
                  have := congrArg List.length he
                  simp only [List.length_cons, List.length_append] at this
                  have hm := List.length_pos.mpr hshape.m_ne_nil
                  omega
                have hIH := ih rem hrem_len (some (m.getLastD c))
                intro a b hab hbound
                rcases a with - | ⟨x, a'⟩
                · simp only [List.nil_append] at hab
                  subst hab
                  apply tryDate_none_of_head
                  intro ch hch
                  rw [scanDates_head_of_word hd] at hch
                  have hB := hshape.headBound
                  rw [headBoundary_iff] at hB
                  exact not_isDigit_of_not_isWordChar (hB ch hch)
                · have hlast : ∃ w, (x :: a').getLast? = some w := by
                    rcases hq : (x :: a').getLast? with - | w
                    · exact absurd (List.getLast?_eq_none_iff.mp hq) (by simp)
                    · exact ⟨w, rfl⟩
                  obtain ⟨w, hw⟩ := hlast
                  apply hIH (x :: a') b hab
                  rw [hw]
                  rw [hw] at hbound
                  exact hbound
            | none =>
                rw [scanDates_keep (Or.inr ht)]
                intro a b hab hbound
                rcases a with - | ⟨x, a'⟩
                · simp only [List.nil_append] at hab
                  subst hab
                  have h9 := @scanDates_headSafe p (c :: rest)
                    (fun _ => ht) (by simpa using hbound)
                  rw [scanDates_keep (Or.inr ht)] at h9
                  exact h9
                · simp only [List.cons_append, List.cons.injEq] at hab
                  obtain ⟨hx, hab'⟩ := hab
                  subst hx
                  have hIH := ih rest (by omega) (some c)
                  apply hIH a' b hab'
                  rw [ctx_cons] at hbound
                  exact hbound
          · rw [scanDates_keep (Or.inl (by simpa using hb))]
            intro a b hab hbound
            rcases a with - | ⟨x, a'⟩
            · simp only [List.getLast?_nil, Option.none_or] at hbound
              exact absurd hbound hb
            · simp only [List.cons_append, List.cons.injEq] at hab
              obtain ⟨hx, hab'⟩ := hab
              subst hx
              have hIH := ih rest (by omega) (some c)
              apply hIH a' b hab'
              rw [ctx_cons] at hbound
              exact hbound

theorem scanDates_noDate (l : List Char) (p : Option Char) :
    NoDateFrom p (scanDates p l) :=
  scanDates_noDate_aux l.length l (le_refl _) p

/-- A string with no date match anywhere is a fixed point of the scan. -/
theorem scanDates_eq_self : ∀ (l : List Char) (p : Option Char),
    NoDateFrom p l → scanDates p l = l := by
  intro l
  induction l with
  | nil => intro p _; exact scanDates_nil p
  | cons c rest ih =>
      intro p h
      have hk : scanDates p (c :: rest) = c :: scanDates (some c) rest := by
        by_cases hb : prevBoundary p = true
        · exact scanDates_keep (Or.inr (h [] (c :: rest) rfl (by simpa using hb)))
        · exact scanDates_keep (Or.inl (by simpa using hb))
      rw [hk, ih (some c) (h.restrict_cons)]

theorem char_toNat_ofNat (n : Nat) (h : n.isValidChar) : (Char.ofNat n).toNat = n := by
  simp [Char.ofNat, h, Char.ofNatAux, Char.toNat]
  rfl

theorem toUpper_isLower (c : Char) : c.toUpper.isLower = false := by
  unfold Char.toUpper
  dsimp only
  by_cases h : c.toNat ≥ 97 ∧ c.toNat ≤ 122
  · rw [if_pos h]
    have hv : (c.toNat - 32).isValidChar := by
      left
      omega
    have he : (Char.ofNat (c.toNat - 32)).toNat = c.toNat - 32 := char_toNat_ofNat _ hv
    simp only [Char.isLower, Bool.and_eq_false_iff, decide_eq_false_iff_not]
    left
    intro hc
    have hc2 : (97 : Nat) ≤ (Char.ofNat (c.toNat - 32)).toNat := hc
    rw [he] at hc2
    omega
  · rw [if_neg h]
    simp only [Char.isLower, Bool.and_eq_false_iff, decide_eq_false_iff_not]
    by_cases h1 : 97 ≤ c.toNat
    · right
      intro hc
      have hc2 : c.toNat ≤ 122 := hc
      exact h ⟨h1, hc2⟩
    · left
      intro hc
      have hc2 : (97:Nat) ≤ c.toNat := hc
      exact h1 hc2

theorem toUpper_idem (c : Char) : c.toUpper.toUpper = c.toUpper := by
  conv_lhs => rw [Char.toUpper]
  have h0 := toUpper_isLower c
  simp only [Char.isLower] at h0
  rw [if_neg]
  intro hc
  rw [Bool.and_eq_false_iff] at h0
  rcases h0 with h | h <;> rw [decide_eq_false_iff_not] at h
  · exact h hc.1
  · exact h hc.2

theorem scanDates_chars_aux : ∀ (n : Nat) (l : List Char), l.length ≤ n →
    ∀ (p : Option Char) (c : Char), c ∈ scanDates p l → c ∈ l := by
  intro n
  induction n with
  | zero =>
      intro l hl p c hc
      have he : l = [] := List.eq_nil_of_length_eq_zero (by omega)
      subst he
      rw [scanDates_nil] at hc
      simp at hc
  | succ n ih =>
      intro l hl p c hc
      match l with
      | [] => rw [scanDates_nil] at hc; simp at hc
      | c0 :: rest =>
          simp only [List.length_cons] at hl
          by_cases hb : prevBoundary p = true
          · match ht : tryDate (c0 :: rest) with
            | some (m, rem) =>
                rw [scanDates_match hb ht] at hc
                obtain ⟨he, hshape⟩ := tryDate_spec ht
                have hrem_len : rem.length ≤ n := by
                  have := congrArg List.length he
                  simp only [List.length_cons, List.length_append] at this
                  have hm := List.length_pos.mpr hshape.m_ne_nil
                  omega
                have := ih rem hrem_len _ c hc
                rw [he]
                exact List.mem_append.mpr (Or.inr this)
            | none =>
                rw [scanDates_keep (Or.inr ht)] at hc
                rcases List.mem_cons.mp hc with h1 | h1
                · simp [h1]
                · exact List.mem_cons_of_mem c0 (ih rest (by omega) _ c h1)
          · rw [scanDates_keep (Or.inl (by simpa using hb))] at hc
            rcases List.mem_cons.mp hc with h1 | h1
            · simp [h1]
            · exact List.mem_cons_of_mem c0 (ih rest (by omega) _ c h1)

theorem collapseGo_chars : ∀ (l : List Char) (flag : Bool) (c : Char),
    c ∈ collapseGo flag l → c ∈ l ∨ c = ' ' := by
  intro l
  induction l with
  | nil => intro flag c hc; cases flag <;> simp [collapseGo] at hc
  | cons x t ih =>
      intro flag c hc
      cases flag <;> simp only [collapseGo] at hc
      · by_cases hx : x.isWhitespace
        · rw [if_pos hx] at hc
          rcases List.mem_cons.mp hc with h1 | h1
          · exact Or.inr h1
          · rcases ih true c h1 with h2 | h2
            · exact Or.inl (by simp [h2])
            · exact Or.inr h2
        · rw [if_neg hx] at hc
          rcases List.mem_cons.mp hc with h1 | h1
          · exact Or.inl (by simp [h1])
          · rcases ih false c h1 with h2 | h2
            · exact Or.inl (by simp [h2])
            · exact Or.inr h2
      · by_cases hx : x.isWhitespace
        · rw [if_pos hx] at hc
          rcases ih true c hc with h2 | h2
          · exact Or.inl (by simp [h2])
          · exact Or.inr h2
        · rw [if_neg hx] at hc
          rcases List.mem_cons.mp hc with h1 | h1
          · exact Or.inl (by simp [h1])
          · rcases ih false c h1 with h2 | h2
            · exact Or.inl (by simp [h2])
            · exact Or.inr h2

theorem pyStrip_chars {l : List Char} {c : Char} (hc : c ∈ pyStrip l) : c ∈ l := by
  unfold pyStrip at hc
  rw [List.mem_reverse] at hc
  have hsub : ((l.dropWhile Char.isWhitespace).reverse.dropWhile Char.isWhitespace).Sublist
      (l.dropWhile Char.isWhitespace).reverse := List.dropWhile_sublist _
  have h1 := hsub.mem hc
  rw [List.mem_reverse] at h1
  have hsub2 : (l.dropWhile Char.isWhitespace).Sublist l := List.dropWhile_sublist _
  exact hsub2.mem h1

theorem pyUpper_fix {l : List Char} (h : ∀ c ∈ l, c.toUpper = c) : pyUpper l = l := by
  unfold pyUpper
  rw [List.map_congr_left h]
  exact List.map_id l

theorem prevBoundary_ws {c : Char} (h : c.isWhitespace = true) :
    prevBoundary (some c) = true := by
  simp [prevBoundary, not_isWordChar_of_isWhitespace h]

theorem noDateFrom_nil (p : Option Char) : NoDateFrom p [] := by
  intro a b hab _
  obtain ⟨-, hb⟩ := List.append_eq_nil.mp hab.symm
  rw [hb]
  exact tryDate_nil

theorem collapseGo_true_eq : ∀ (l : List Char),
    collapseGo true l = collapseGo false (l.dropWhile Char.isWhitespace) := by
  intro l
  induction l with
  | nil => rfl
  | cons c t ih =>
      by_cases hc : c.isWhitespace = true
      · rw [List.dropWhile_cons, if_pos hc]
        simp only [collapseGo, if_pos hc]
        exact ih
      · rw [List.dropWhile_cons, if_neg hc]
        simp only [collapseGo, if_neg hc]

theorem collapse_noDate_aux : ∀ (n : Nat) (l : List Char), l.length ≤ n →
    ∀ (pR pC : Option Char), (prevBoundary pC = true → prevBoundary pR = true) →
    NoDateFrom pR l → NoDateFrom pC (collapseGo false l) := by
  intro n
  induction n with
  | zero =>
      intro l hl pR pC _ _
      have he : l = [] := List.eq_nil_of_length_eq_zero (by omega)
      subst he
      exact noDateFrom_nil pC
  | succ n ih =>
      intro l hl pR pC himp hR
      match l with
      | [] => exact noDateFrom_nil pC
      | c :: rest =>
          simp only [List.length_cons] at hl
          by_cases hc : c.isWhitespace = true
          · have hrw : collapseGo false (c :: rest)
                = ' ' :: collapseGo false (rest.dropWhile Char.isWhitespace) := by
              simp only [collapseGo, if_pos hc]
              rw [collapseGo_true_eq]
              simp
            have hsplit : rest = rest.takeWhile Char.isWhitespace
                ++ rest.dropWhile Char.isWhitespace :=
              (List.takeWhile_append_dropWhile _ _).symm
            have hR2 : NoDateFrom pR ((c :: rest.takeWhile Char.isWhitespace)
                ++ rest.dropWhile Char.isWhitespace) := by
              rwa [List.cons_append, ← hsplit]
            have hq := hR2.restrict
            have hqB : prevBoundary
                (((c :: rest.takeWhile Char.isWhitespace).getLast?).or pR) = true := by
              rcases hgl : (c :: rest.takeWhile Char.isWhitespace).getLast? with - | w
              · simp at hgl
              · have hwmem : w ∈ c :: rest.takeWhile Char.isWhitespace :=
                  List.mem_of_mem_getLast? hgl
                have hww : w.isWhitespace = true := by
                  rcases List.mem_cons.mp hwmem with h1 | h1
                  · rw [h1]; exact hc
                  · exact List.mem_takeWhile_imp h1
                exact prevBoundary_ws hww
            rw [hrw]
            intro a b hab hpb
            rcases a with - | ⟨a0, a'⟩
            · simp only [List.nil_append] at hab
              rw [← hab]
              apply tryDate_none_of_head
              intro x hx
              simp only [List.head?_cons, Option.some.injEq] at hx
              rw [← hx]
              decide
            · rw [List.cons_append] at hab
              injection hab with h1 h2
              have hlen : (rest.dropWhile Char.isWhitespace).length ≤ n := by
                have hle : (rest.dropWhile Char.isWhitespace).length ≤ rest.length :=
                  (List.dropWhile_sublist _).length_le
                omega
              have hIH : NoDateFrom (some ' ')
                  (collapseGo false (rest.dropWhile Char.isWhitespace)) :=
                ih _ hlen _ (some ' ') (fun _ => hqB) hq
              refine hIH a' b h2 ?_
              rw [ctx_cons] at hpb
              rw [← h1] at hpb
              exact hpb
          · have hrw : collapseGo false (c :: rest) = c :: collapseGo false rest := by
              simp only [collapseGo, if_neg hc]
            rw [hrw]
            intro a b hab hpb
            rcases a with - | ⟨a0, a'⟩
            · simp only [List.nil_append] at hab
              by_contra hne
              rw [← hab] at hne
              have hsome : (tryDate (collapseWS (c :: rest))).isSome = true := by
                unfold collapseWS
                rw [hrw]
                exact Option.isSome_iff_ne_none.mpr hne
              have h2 := tryDate_isSome_of_collapse hsome
              have hpR : prevBoundary pR = true := himp (by simpa using hpb)
              have h3 := hR [] (c :: rest) rfl (by simpa using hpR)
              rw [h3] at h2
              simp at h2
            · rw [List.cons_append] at hab
              injection hab with h1 h2
              have hIH : NoDateFrom (some c) (collapseGo false rest) :=
                ih rest (by omega) (some c) (some c) (fun h => h) hR.restrict_cons
              refine hIH a' b h2 ?_
              rw [ctx_cons] at hpb
              rw [← h1] at hpb
              exact hpb

theorem collapse_noDate {p : Option Char} {l : List Char} (h : NoDateFrom p l) :
    NoDateFrom p (collapseWS l) :=
  collapse_noDate_aux l.length l (le_refl _) p p (fun h => h) h

theorem strip_decomp (l : List Char) : ∃ w1 w2,
    (∀ c ∈ w1, c.isWhitespace = true) ∧ (∀ c ∈ w2, c.isWhitespace = true) ∧
    l = w1 ++ pyStrip l ++ w2 := by
  refine ⟨l.takeWhile Char.isWhitespace,
    ((l.dropWhile Char.isWhitespace).reverse.takeWhile Char.isWhitespace).reverse,
    ?_, ?_, ?_⟩
  · intro c hc
    exact List.mem_takeWhile_imp hc
  · intro c hc
    rw [List.mem_reverse] at hc
    exact List.mem_takeWhile_imp hc
  · unfold pyStrip
    rw [List.append_assoc]
    conv_lhs => rw [← List.takeWhile_append_dropWhile Char.isWhitespace l]
    congr 1
    conv_rhs => rw [← List.reverse_append,
      List.takeWhile_append_dropWhile Char.isWhitespace _, List.reverse_reverse]

theorem strip_noDate {p : Option Char} {l : List Char} (hp : prevBoundary p = true)
    (h : NoDateFrom p l) : NoDateFrom none (pyStrip l) := by
  obtain ⟨w1, w2, hw1, hw2, hdec⟩ := strip_decomp l
  intro a b hab hpb
  have h1 : NoDateFrom ((w1.getLast?).or p) (pyStrip l ++ w2) := by
    have h0 : NoDateFrom p (w1 ++ (pyStrip l ++ w2)) := by
      rw [← List.append_assoc, ← hdec]
      exact h
    exact h0.restrict
  have hsp : pyStrip l ++ w2 = a ++ (b ++ w2) := by
    rw [hab, List.append_assoc]
  have hctx : prevBoundary ((a.getLast?).or ((w1.getLast?).or p)) = true := by
    rcases hga : a.getLast? with - | w
    · rw [Option.none_or]
      rcases hgw : w1.getLast? with - | v
      · rw [Option.none_or]
        exact hp
      · have hv : v.isWhitespace = true := hw1 v (List.mem_of_mem_getLast? hgw)
        exact prevBoundary_ws hv
    · rw [hga] at hpb
      exact hpb
  have htd : tryDate (b ++ w2) = none := h1 a (b ++ w2) hsp hctx
  by_contra hne
  have hs : (tryDate (b ++ w2)).isSome = true :=
    tryDate_isSome_append_ws hw2 (Option.isSome_iff_ne_none.mpr hne)
  rw [htd] at hs
  simp at hs

theorem collapseGo_ws_space : ∀ (l : List Char) (flag : Bool) (c : Char),
    c ∈ collapseGo flag l → c.isWhitespace = true → c = ' ' := by
  intro l
  induction l with
  | nil =>
      intro flag c hc _
      cases flag <;> simp [collapseGo] at hc
  | cons x t ih =>
      intro flag c hc hcw
      cases flag <;> simp only [collapseGo] at hc
      · by_cases hx : x.isWhitespace = true
        · rw [if_pos hx] at hc
          rcases List.mem_cons.mp hc with h1 | h1
          · exact h1
          · exact ih true c h1 hcw
        · rw [if_neg hx] at hc
          rcases List.mem_cons.mp hc with h1 | h1
          · rw [h1] at hcw
            exact absurd hcw hx
          · exact ih false c h1 hcw
      · by_cases hx : x.isWhitespace = true
        · rw [if_pos hx] at hc
          exact ih true c hc hcw
        · rw [if_neg hx] at hc
          rcases List.mem_cons.mp hc with h1 | h1
          · rw [h1] at hcw
            exact absurd hcw hx
          · exact ih false c h1 hcw

theorem collapseGo_false_head {l : List Char} {c : Char}
    (hl : ∀ d, l.head? = some d → d.isWhitespace = false)
    (hc : (collapseGo false l).head? = some c) : c.isWhitespace = false := by
  rcases l with - | ⟨x, t⟩
  · simp [collapseGo] at hc
  · have hx : x.isWhitespace = false := hl x rfl
    have hnot : ¬ (x.isWhitespace = true) := by
      rw [hx]
      simp
    simp only [collapseGo, if_neg hnot] at hc
    simp only [List.head?_cons, Option.some.injEq] at hc
    rw [← hc]
    exact hx

theorem collapseGo_true_head {l : List Char} {c : Char}
    (hc : (collapseGo true l).head? = some c) : c.isWhitespace = false := by
  rw [collapseGo_true_eq] at hc
  refine collapseGo_false_head ?_ hc
  intro d hd
  have h2 := List.head?_dropWhile_not Char.isWhitespace l
  rw [hd] at h2
  simpa using h2

theorem collapseGo_chain : ∀ (l : List Char) (flag : Bool),
    List.Chain' (fun a b => a.isWhitespace = false ∨ b.isWhitespace = false)
      (collapseGo flag l) := by
  intro l
  induction l with
  | nil => intro flag; cases flag <;> simp [collapseGo]
  | cons x t ih =>
      intro flag
      cases flag <;> simp only [collapseGo]
      · by_cases hx : x.isWhitespace = true
        · rw [if_pos hx]
          refine List.chain'_cons'.mpr ⟨?_, ih true⟩
          intro y hy
          exact Or.inr (collapseGo_true_head hy)
        · rw [if_neg hx]
          refine List.chain'_cons'.mpr ⟨?_, ih false⟩
          intro y _
          exact Or.inl (by simpa using hx)
      · by_cases hx : x.isWhitespace = true
        · rw [if_pos hx]
          exact ih true
        · rw [if_neg hx]
          refine List.chain'_cons'.mpr ⟨?_, ih false⟩
          intro y _
          exact Or.inl (by simpa using hx)

theorem collapse_fix : ∀ (l : List Char),
    (∀ c ∈ l, c.isWhitespace = true → c = ' ') →
    List.Chain' (fun a b => a.isWhitespace = false ∨ b.isWhitespace = false) l →
    collapseGo false l = l := by
  intro l
  induction l with
  | nil => intro _ _; rfl
  | cons x t ih =>
      intro hws hch
      obtain ⟨hhd, hch'⟩ := List.chain'_cons'.mp hch
      by_cases hx : x.isWhitespace = true
      · have hx' : x = ' ' := hws x (by simp) hx
        simp only [collapseGo, if_pos hx]
        rw [collapseGo_true_eq]
        have hdrop : t.dropWhile Char.isWhitespace = t := by
          rcases t with - | ⟨y, s⟩
          · rfl
          · have hy : y.isWhitespace = false := by
              rcases hhd y rfl with h1 | h1
              · rw [h1] at hx
                exact absurd hx (by simp)
              · exact h1
            have hnot : ¬ (y.isWhitespace = true) := by
              rw [hy]
              simp
            rw [List.dropWhile_cons, if_neg hnot]
        rw [hdrop, ih (fun c hc => hws c (List.mem_cons_of_mem x hc)) hch']
        simp [hx']
      · simp only [collapseGo, if_neg hx]
        rw [ih (fun c hc => hws c (List.mem_cons_of_mem x hc)) hch']

theorem dropWhile_eq_self_of_head {p : Char → Bool} {l : List Char}
    (h : ∀ c, l.head? = some c → p c = false) : l.dropWhile p = l := by
  rcases l with - | ⟨x, t⟩
  · rfl
  · have hx : p x = false := h x rfl
    have hnot : ¬ (p x = true) := by
      rw [hx]
      simp
    rw [List.dropWhile_cons, if_neg hnot]

theorem pyStrip_head {l : List Char} {c : Char}
    (hc : (pyStrip l).head? = some c) : c.isWhitespace = false := by
  unfold pyStrip at hc
  rw [List.head?_reverse] at hc
  have hne : (l.dropWhile Char.isWhitespace).reverse.dropWhile Char.isWhitespace ≠ [] := by
    intro h0
    rw [h0] at hc
    simp at hc
  have hsuf : ((l.dropWhile Char.isWhitespace).reverse.dropWhile Char.isWhitespace)
      <:+ (l.dropWhile Char.isWhitespace).reverse := List.dropWhile_suffix Char.isWhitespace
  obtain ⟨t, ht⟩ := hsuf
  have hgl : (l.dropWhile Char.isWhitespace).reverse.getLast? = some c := by
    rw [← ht, List.getLast?_append_of_ne_nil _ hne]
    exact hc
  rw [List.getLast?_reverse] at hgl
  have h2 := List.head?_dropWhile_not Char.isWhitespace l
  rw [hgl] at h2
  simpa using h2

theorem pyStrip_last {l : List Char} {c : Char}
    (hc : (pyStrip l).getLast? = some c) : c.isWhitespace = false := by
  unfold pyStrip at hc
  rw [List.getLast?_reverse] at hc
  have h2 := List.head?_dropWhile_not Char.isWhitespace
    (l.dropWhile Char.isWhitespace).reverse
  rw [hc] at h2
  simpa using h2

theorem pyStrip_fix {l : List Char}
    (hh : ∀ c, l.head? = some c → c.isWhitespace = false)
    (hl : ∀ c, l.getLast? = some c → c.isWhitespace = false) :
    pyStrip l = l := by
  unfold pyStrip
  rw [dropWhile_eq_self_of_head hh]
  rw [dropWhile_eq_self_of_head (fun c hc => hl c (by rwa [← List.getLast?_reverse,
    List.reverse_reverse] at hc))]
  exact List.reverse_reverse l

theorem normalize_core_upper {s : String} {c : Char}
    (hc : c ∈ pyStrip (collapseWS (scanDates none (pyUpper s.data)))) :
    c.toUpper = c := by
  have h1 := pyStrip_chars hc
  unfold collapseWS at h1
  rcases collapseGo_chars _ false c h1 with h2 | h2
  · have h3 := scanDates_chars_aux (pyUpper s.data).length _ (le_refl _) none c h2
    unfold pyUpper at h3
    obtain ⟨d, -, hd⟩ := List.mem_map.mp h3
    rw [← hd]
    exact toUpper_idem d
  · rw [h2]
    decide

theorem normalize_fix (s : String) :
    pyStrip (collapseWS (scanDates none (pyUpper
      (pyStrip (collapseWS (scanDates none (pyUpper s.data))))))) =
    pyStrip (collapseWS (scanDates none (pyUpper s.data))) := by
  have hU : pyUpper (pyStrip (collapseWS (scanDates none (pyUpper s.data)))) =
      pyStrip (collapseWS (scanDates none (pyUpper s.data))) :=
    pyUpper_fix (fun c hc => normalize_core_upper hc)
  have hN : NoDateFrom none (pyStrip (collapseWS (scanDates none (pyUpper s.data)))) :=
    strip_noDate (by decide) (collapse_noDate (scanDates_noDate _ none))
  have hS : scanDates none (pyStrip (collapseWS (scanDates none (pyUpper s.data)))) =
      pyStrip (collapseWS (scanDates none (pyUpper s.data))) :=
    scanDates_eq_self _ none hN
  have hCh : List.Chain' (fun a b => a.isWhitespace = false ∨ b.isWhitespace = false)
      (pyStrip (collapseWS (scanDates none (pyUpper s.data)))) := by
    obtain ⟨w1, w2, -, -, hdec⟩ :=
      strip_decomp (collapseWS (scanDates none (pyUpper s.data)))
    exact List.Chain'.infix (collapseGo_chain _ false) ⟨w1, w2, hdec.symm⟩
  have hWS : ∀ c ∈ pyStrip (collapseWS (scanDates none (pyUpper s.data))),
      c.isWhitespace = true → c = ' ' := by
    intro c hc hw
    exact collapseGo_ws_space _ false c (pyStrip_chars hc) hw
  have hC : collapseWS (pyStrip (collapseWS (scanDates none (pyUpper s.data)))) =
      pyStrip (collapseWS (scanDates none (pyUpper s.data))) :=
    collapse_fix _ hWS hCh
  have hP : pyStrip (pyStrip (collapseWS (scanDates none (pyUpper s.data)))) =
      pyStrip (collapseWS (scanDates none (pyUpper s.data))) :=
    pyStrip_fix (fun c hc => pyStrip_head hc) (fun c hc => pyStrip_last hc)
  rw [hU, hS, hC, hP]

/-- C6: normalize_text is a pure function of its argument (it is a Lean
function by construction) and is idempotent: applying it to its own output
returns that output unchanged, for every input; in particular the inputs
"Replace Seal 5/12/23" and "REPLACE SEAL" normalize to the same string,
so uppercasing, date removal, whitespace collapsing and trimming reach a
fixed point after one application. -/
theorem C6_normalize_idempotent :
    (∀ t : Option String, normalize_text (some (normalize_text t)) = normalize_text t) ∧
    normalize_text (some "Replace Seal 5/12/23") = normalize_text (some "REPLACE SEAL") := by
  constructor
  · intro t
    match t with
    | none => decide
    | some s =>
        simp only [normalize_text]
        exact congrArg String.mk (normalize_fix s)
  · decide
